import Mathlib

set_option linter.unusedSectionVars false

/-!
A shallow embedding of the `BetterCache` DNS record cache
(`src/dns.rs`, `src/better_cache.rs`) together with proofs about its
invariants and operations.

Modelling conventions:
* `Instant` and `Duration` are `Nat` (a monotonic clock tick count);
  Rust's `Instant::now()` becomes an explicit `now : Instant` parameter
  sampled once per public operation.
* `expires.saturating_duration_since(now)` is `Nat` truncated
  subtraction, which is exactly saturating subtraction.
* `HashMap` becomes an association list (`List (key × value)`); the key
  sets of reachable caches are duplicate-free, which the invariant
  records.  `HashMap::insert` of a fresh key appends at the end.
* `PriorityQueue<K, Reverse<Instant>>` becomes a `List (K × Instant)`
  whose `pop` extracts the (first) entry of minimal instant; `push` of a
  present key updates its priority, and of an absent key appends.
* The two unbounded Rust loops inside `prune` are modelled with explicit
  fuel; the fuel bounds chosen (`totalTuples + 1`, queue length + 1) are
  shown to be large enough that the loop always reaches its natural exit
  condition on states satisfying the structural invariant.
-/

namespace DnsCache

/-! ## Time -/

abbrev Instant := Nat
abbrev Duration := Nat

/-! ## Domain-name and record model (src/dns.rs) -/

/-- `DomainName`: ordered sequence of label byte-strings. -/
structure DomainName where
  labels : List (List Nat)
deriving DecidableEq, Repr

/-- IPv4 address payload of an A record. -/
abbrev Ipv4Addr := Nat

/-- `RecordType`: closed tag (A, CNAME). -/
inductive RecordType
  | A
  | CNAME
deriving DecidableEq, Repr

/-- `RecordTypeWithData`: tag plus payload. -/
inductive RecordTypeWithData
  | A (address : Ipv4Addr)
  | CNAME (cname : DomainName)
deriving DecidableEq, Repr

/-- `RecordTypeWithData::rtype`. -/
def RecordTypeWithData.rtype : RecordTypeWithData → RecordType
  | .A _ => .A
  | .CNAME _ => .CNAME

/-- `RecordClass` (only IN). -/
inductive RecordClass
  | IN
deriving DecidableEq, Repr

/-- `QueryType`: a specific record type or a wildcard. -/
inductive QueryType
  | Record (rtype : RecordType)
  | Wildcard
deriving DecidableEq, Repr

/-- `QueryClass`: a specific record class or a wildcard. -/
inductive QueryClass
  | Record (rclass : RecordClass)
  | Wildcard
deriving DecidableEq, Repr

/-- `RecordClass::matches`. -/
def RecordClass.matches (c : RecordClass) (q : QueryClass) : Bool :=
  match q with
  | .Wildcard => true
  | .Record rclass => c = rclass

/-- `ResourceRecord`: name, typed payload, class, relative TTL. -/
structure ResourceRecord where
  name : DomainName
  rtype : RecordTypeWithData
  rclass : RecordClass
  ttl : Duration
deriving DecidableEq, Repr

/-! ## Association-list helpers (model of `HashMap`) -/

/-- First value stored under key `k` (model of `HashMap::get`). -/
def lookupKey [DecidableEq α] (k : α) : List (α × β) → Option β
  | [] => none
  | (a, b) :: rest => if a = k then some b else lookupKey k rest

/-- Apply `f` to the (first) value under key `k` (model of in-place
mutation through `HashMap::get_mut`). -/
def updateKey [DecidableEq α] (k : α) (f : β → β) : List (α × β) → List (α × β)
  | [] => []
  | (a, b) :: rest => if a = k then (a, f b) :: rest else (a, b) :: updateKey k f rest

/-- Remove the (first) pair with key `k` (model of `HashMap::remove`). -/
def removeKey [DecidableEq α] (k : α) : List (α × β) → List (α × β)
  | [] => []
  | (a, b) :: rest => if a = k then rest else (a, b) :: removeKey k rest

/-- Keys of an association list. -/
def keysOf (l : List (α × β)) : List α := l.map Prod.fst

/-! ## Priority-queue model (`PriorityQueue<DomainName, Reverse<Instant>>`) -/

/-- `pop`: extract the (first) entry with minimal instant, together with
the remaining queue. -/
def pqPop : List (α × Instant) → Option ((α × Instant) × List (α × Instant))
  | [] => none
  | x :: rest =>
    match pqPop rest with
    | none => some (x, [])
    | some (y, rest') => if x.2 ≤ y.2 then some (x, rest) else some (y, x :: rest')

/-- `push`: update the priority when the key is present, append otherwise. -/
def pqPush [DecidableEq α] (k : α) (p : Instant) (l : List (α × Instant)) :
    List (α × Instant) :=
  if k ∈ keysOf l then updateKey k (fun _ => p) l else l ++ [(k, p)]

/-- `change_priority`: update the priority when present, no-op otherwise. -/
def pqChangePriority [DecidableEq α] (k : α) (p : Instant)
    (l : List (α × Instant)) : List (α × Instant) :=
  updateKey k (fun _ => p) l

/-- `remove`: drop the entry for `k`. -/
def pqRemove [DecidableEq α] (k : α) (l : List (α × Instant)) :
    List (α × Instant) :=
  removeKey k l

/-! ## Cache state (src/better_cache.rs) -/

/-- Cached tuple: (typed payload, class, absolute expiry instant). -/
abbrev CachedTuple := RecordTypeWithData × RecordClass × Instant

/-- `CachedDomainRecords`. -/
structure CachedDomainRecords where
  last_read : Instant
  next_expiry : Instant
  size : Nat
  records : List (RecordType × List CachedTuple)
deriving DecidableEq, Repr

/-- `BetterCache`. -/
structure BetterCache where
  entries : List (DomainName × CachedDomainRecords)
  access_priority : List (DomainName × Instant)
  expiry_priority : List (DomainName × Instant)
  current_size : Nat
  desired_size : Nat
deriving DecidableEq, Repr

/-- Number of tuples actually stored under a domain (across all
record-type groups). -/
def tupleCount (e : CachedDomainRecords) : Nat :=
  (e.records.map (fun g => g.2.length)).sum

/-- All tuples stored under a domain. -/
def allTuples (e : CachedDomainRecords) : List CachedTuple :=
  (e.records.map (fun g => g.2)).flatten

/-- All absolute expiry instants of the tuples of a domain. -/
def expiriesOf (e : CachedDomainRecords) : List Instant :=
  (allTuples e).map (fun t => t.2.2)

/-- Total number of tuples stored in the whole cache. -/
def totalTuples (s : BetterCache) : Nat :=
  (s.entries.map (fun kv => tupleCount kv.2)).sum

/-- `BetterCache::with_desired_size`; the Rust function panics on a zero
capacity, modelled as `none`. -/
def withDesiredSize (desired_size : Nat) : Option BetterCache :=
  if desired_size = 0 then none
  else some
    { entries := []
      access_priority := []
      expiry_priority := []
      current_size := 0
      desired_size := desired_size }

/-! ## Lookup (`BetterCache::get`) -/

/-- The candidate tuples a query type selects from a domain entry:
all tuples for a wildcard, only the matching type group otherwise
(absent group means no candidates). -/
def matchedTuples (e : CachedDomainRecords) (qtype : QueryType) : List CachedTuple :=
  match qtype with
  | .Wildcard => allTuples e
  | .Record record_type => (lookupKey record_type e.records).getD []

/-- The result list `get` materialises from an entry: the class-matching
candidate tuples, each with TTL `expiry - now` (`Nat` truncated
subtraction, i.e. Rust's `saturating_duration_since`). -/
def getRrs (e : CachedDomainRecords) (now : Instant) (name : DomainName)
    (qtype : QueryType) (qclass : QueryClass) : List ResourceRecord :=
  ((matchedTuples e qtype).filter (fun t => t.2.1.matches qclass)).map
    (fun t =>
      { name := name
        rtype := t.1
        rclass := t.2.1
        ttl := t.2.2 - now })

/-- `BetterCache::get`.  Returns the result sequence and the new cache
state; `now` is the instant sampled at the start of the call.  Recency
is updated only on a non-empty result. -/
def BetterCache.get (s : BetterCache) (now : Instant) (name : DomainName)
    (qtype : QueryType) (qclass : QueryClass) :
    List ResourceRecord × BetterCache :=
  match lookupKey name s.entries with
  | none => ([], s)
  | some cached_domain_records =>
    let rrs := getRrs cached_domain_records now name qtype qclass
    if rrs.isEmpty then (rrs, s)
    else
      (rrs,
        { s with
          entries := updateKey name
            (fun e => { e with last_read := now }) s.entries
          access_priority := pqChangePriority name now s.access_priority })

/-! ## Insertion (`BetterCache::insert`) -/

/-- Find the first element satisfying `p` together with its index
(the scan `for i in 0..tuples.len()` of `insert`). -/
def findIdxElem (p : α → Bool) : List α → Option (Nat × α)
  | [] => none
  | x :: rest =>
    if p x then some (0, x)
    else (findIdxElem p rest).map (fun y => (y.1 + 1, y.2))

/-- `Vec::swap_remove i`: replace position `i` by the last element and
drop the last position (callers only use an in-bounds `i`). -/
def swapRemove (l : List α) (i : Nat) : List α :=
  match l.getLast? with
  | none => l
  | some last => (l.set i last).dropLast

/-- The duplicate test of `insert`'s scan (`t.0 == tuple.0 && t.1 ==
tuple.1`): same typed payload and same class as the incoming record. -/
def dupPred (record : ResourceRecord) : CachedTuple → Bool :=
  fun t => decide (t.1 = record.rtype) && decide (t.2.1 = record.rclass)

/-- `BetterCache::insert`.  `now` is the sampled instant; the absolute
expiry is `now + record.ttl`.  Follows the source's branch structure:
existing entry / existing type group / duplicate (payload, class) scan,
and the fresh-entry path. -/
def BetterCache.insert (s : BetterCache) (now : Instant)
    (record : ResourceRecord) : BetterCache :=
  let rtype := record.rtype.rtype
  let expiry := now + record.ttl
  let tuple : CachedTuple := (record.rtype, record.rclass, expiry)
  match lookupKey record.name s.entries with
  | some entry =>
    -- update the type group, detecting a duplicate (payload, class)
    let groupStep : CachedDomainRecords × Option Instant :=
      match lookupKey rtype entry.records with
      | some tuples =>
        match findIdxElem (dupPred record) tuples with
        | some it =>
          let recs := updateKey rtype
            (fun _ => swapRemove tuples it.1 ++ [tuple]) entry.records
          ({ entry with records := recs }, some it.2.2.2)
        | none =>
          let recs := updateKey rtype (fun ts => ts ++ [tuple]) entry.records
          ({ entry with records := recs }, none)
      | none =>
        ({ entry with records := entry.records ++ [(rtype, [tuple])] }, none)
    let entry1 := groupStep.1
    -- duplicate bookkeeping: size/current_size decrement and, when the
    -- removed tuple carried the domain's next_expiry, a recomputation
    -- scanning only this type's group (which now contains the new tuple)
    let dupStep : CachedDomainRecords × Nat × List (DomainName × Instant) :=
      match groupStep.2 with
      | some dup_expiry =>
        let entry2 := { entry1 with size := entry1.size - 1 }
        if dup_expiry = entry.next_expiry then
          let group := (lookupKey rtype entry2.records).getD []
          let ne := group.foldl
            (fun acc t => if t.2.2 < acc then t.2.2 else acc) expiry
          ({ entry2 with next_expiry := ne }, s.current_size - 1,
            pqChangePriority record.name ne s.expiry_priority)
        else (entry2, s.current_size - 1, s.expiry_priority)
      | none => (entry1, s.current_size, s.expiry_priority)
    let entry3 := dupStep.1
    -- unconditional updates: recency, size increment, expiry lowering
    let entry4 := { entry3 with last_read := now, size := entry3.size + 1 }
    let final : CachedDomainRecords × List (DomainName × Instant) :=
      if expiry < entry4.next_expiry then
        ({ entry4 with next_expiry := expiry },
          pqChangePriority record.name expiry dupStep.2.2)
      else (entry4, dupStep.2.2)
    { s with
      entries := updateKey record.name (fun _ => final.1) s.entries
      access_priority := pqChangePriority record.name now s.access_priority
      expiry_priority := final.2
      current_size := dupStep.2.1 + 1 }
  | none =>
    let entry : CachedDomainRecords :=
      { last_read := now
        next_expiry := expiry
        size := 1
        records := [(rtype, [tuple])] }
    { s with
      entries := s.entries ++ [(record.name, entry)]
      access_priority := pqPush record.name now s.access_priority
      expiry_priority := pqPush record.name expiry s.expiry_priority
      current_size := s.current_size + 1 }

/-! ## Pruning (`BetterCache::prune`) -/

/-- `BetterCache::remove_least_recently_used`: pop the least recently
read domain and delete it from all three structures, returning its
tuple count. -/
def BetterCache.removeLeastRecentlyUsed (s : BetterCache) : Nat × BetterCache :=
  match pqPop s.access_priority with
  | none => (0, s)
  | some (x, acc) =>
    let s1 := { s with
      access_priority := acc
      expiry_priority := pqRemove x.1 s.expiry_priority }
    match lookupKey x.1 s1.entries with
    | some entry =>
      (entry.size,
        { s1 with
          entries := removeKey x.1 s1.entries
          current_size := s1.current_size - entry.size })
    | none => (0, s1)

/-- The per-group filtering of `remove_expired_step`
(`tuples.retain(|(_, _, expiry)| expiry > &now)`): every type group is
kept, holding only its still-live tuples. -/
def filterLive (now : Instant) (records : List (RecordType × List CachedTuple)) :
    List (RecordType × List CachedTuple) :=
  records.map (fun g => (g.1, g.2.filter (fun t => now < t.2.2)))

/-- The `next_expiry` recomputation of `remove_expired_step`: running
minimum over the surviving tuples, `none` when none survive. -/
def foldOptMin (l : List CachedTuple) : Option Instant :=
  l.foldl
    (fun acc t =>
      match acc with
      | none => some t.2.2
      | some m => if t.2.2 < m then some t.2.2 else some m)
    none

/-- `BetterCache::remove_expired_step`: pop the soonest-to-expire
domain; push it back untouched when its recorded expiry is still in the
future; otherwise filter every type group down to the still-live tuples,
recompute `next_expiry` as the minimum surviving expiry, and delete the
domain when nothing survives.  Returns the number of tuples removed. -/
def BetterCache.removeExpiredStep (s : BetterCache) (now : Instant) :
    Nat × BetterCache :=
  match pqPop s.expiry_priority with
  | none => (0, s)
  | some (x, rest) =>
    if now < x.2 then
      (0, { s with expiry_priority := pqPush x.1 x.2 rest })
    else
      match lookupKey x.1 s.entries with
      | some entry =>
        let records := filterLive now entry.records
        let pruned := tupleCount entry -
          (records.map (fun g => g.2.length)).sum
        let survivors := (records.map (fun g => g.2)).flatten
        match foldOptMin survivors with
        | some ne =>
          (pruned,
            { s with
              entries := updateKey x.1
                (fun e => { e with
                  records := records
                  size := e.size - pruned
                  next_expiry := ne }) s.entries
              expiry_priority := pqPush x.1 ne rest
              current_size := s.current_size - pruned })
        | none =>
          (pruned,
            { s with
              entries := removeKey x.1 s.entries
              access_priority := pqRemove x.1 s.access_priority
              expiry_priority := rest
              current_size := s.current_size - pruned })
      | none =>
        (0, { s with
          expiry_priority := rest
          access_priority := pqRemove x.1 s.access_priority })

/-- The `loop` of `BetterCache::remove_expired`: repeat
`remove_expired_step` until a step removes nothing.  The fuel argument
makes the recursion structural; `removeExpired` passes enough fuel that
the loop always reaches a zero-step (each continuing iteration removes
at least one tuple). -/
def removeExpiredLoop (now : Instant) : Nat → Nat → BetterCache → Nat × BetterCache
  | 0, acc, s => (acc, s)
  | fuel + 1, acc, s =>
    let step := s.removeExpiredStep now
    if step.1 = 0 then (acc, step.2)
    else removeExpiredLoop now fuel (acc + step.1) step.2

/-- `BetterCache::remove_expired`. -/
def BetterCache.removeExpired (s : BetterCache) (now : Instant) :
    Nat × BetterCache :=
  removeExpiredLoop now (totalTuples s + 1) 0 s

/-- The LRU `while` loop of `BetterCache::prune`.  Each iteration with a
non-empty access queue pops one domain, so queue length is a decreasing
measure; the fuel passed by `prune` covers the whole queue.  (On states
violating the structural invariant, where the Rust loop would spin
forever with an empty queue, the fuel instead ends the loop.) -/
def lruLoop : Nat → Nat → BetterCache → Nat × BetterCache
  | 0, acc, s => (acc, s)
  | fuel + 1, acc, s =>
    if s.desired_size < s.current_size then
      let step := s.removeLeastRecentlyUsed
      lruLoop fuel (acc + step.1) step.2
    else (acc, s)

/-- `BetterCache::prune`. -/
def BetterCache.prune (s : BetterCache) (now : Instant) : Nat × BetterCache :=
  if s.current_size ≤ s.desired_size then (0, s)
  else
    let expired := s.removeExpired now
    lruLoop (expired.2.access_priority.length + 1) expired.1 expired.2

/-! ## Operation sequences -/

/-- One public cache operation, with the instant sampled at its start. -/
inductive CacheOp
  | get (now : Instant) (name : DomainName) (qtype : QueryType) (qclass : QueryClass)
  | insert (now : Instant) (record : ResourceRecord)
  | prune (now : Instant)

/-- Apply one operation to the state (discarding the returned value). -/
def applyOp (s : BetterCache) : CacheOp → BetterCache
  | .get now name qtype qclass => (s.get now name qtype qclass).2
  | .insert now record => s.insert now record
  | .prune now => (s.prune now).2

/-- Apply a sequence of operations, left to right. -/
def applyOps (s : BetterCache) : List CacheOp → BetterCache
  | [] => s
  | op :: rest => applyOps (applyOp s op) rest

/-- The running-minimum fold of `insert` (starting value included). -/
def foldMin (l : List CachedTuple) (a : Instant) : Instant :=
  l.foldl (fun acc t => if t.2.2 < acc then t.2.2 else acc) a


/-! ## The structural invariant -/

/-- The structural invariant of a reachable `BetterCache`: duplicate-free
key lists, identical key sets across the three structures, size
bookkeeping, and synchronisation of the priority queues with the entry
fields.  `next_expiry` is always the expiry of some stored tuple of its
domain (`neMem`), but is NOT always the minimum: see the analysis of the
duplicate-replacement branch of `insert`. -/
structure Inv (s : BetterCache) : Prop where
  nodupE : (keysOf s.entries).Nodup
  nodupA : (keysOf s.access_priority).Nodup
  nodupX : (keysOf s.expiry_priority).Nodup
  keysAE : ∀ n ∈ keysOf s.access_priority, n ∈ keysOf s.entries
  keysEA : ∀ n ∈ keysOf s.entries, n ∈ keysOf s.access_priority
  keysXE : ∀ n ∈ keysOf s.expiry_priority, n ∈ keysOf s.entries
  keysEX : ∀ n ∈ keysOf s.entries, n ∈ keysOf s.expiry_priority
  sizeSum : s.current_size = (s.entries.map (fun kv => kv.2.size)).sum
  sizeCount : ∀ kv ∈ s.entries, kv.2.size = tupleCount kv.2
  sizePos : ∀ kv ∈ s.entries, 1 ≤ tupleCount kv.2
  neMem : ∀ kv ∈ s.entries, kv.2.next_expiry ∈ expiriesOf kv.2
  syncX : ∀ kv ∈ s.entries, lookupKey kv.1 s.expiry_priority = some kv.2.next_expiry
  syncA : ∀ kv ∈ s.entries, lookupKey kv.1 s.access_priority = some kv.2.last_read
  nodupG : ∀ kv ∈ s.entries, (keysOf kv.2.records).Nodup
  uniqG : ∀ kv ∈ s.entries, ∀ g ∈ kv.2.records,
    g.2.Pairwise (fun a b => ¬(a.1 = b.1 ∧ a.2.1 = b.2.1))

/-- Accurate next-expiry: every entry's `next_expiry` is a lower bound on
its tuple expiries (with `Inv.neMem` this makes it the exact minimum).
This property is NOT preserved by `insert`'s duplicate-replacement
branch; it is the precondition under which `prune`'s expiry pass removes
every expired tuple. -/
def AccurateExpiry (s : BetterCache) : Prop :=
  ∀ kv ∈ s.entries, ∀ t ∈ allTuples kv.2, kv.2.next_expiry ≤ t.2.2

/-- No tuple stored anywhere in the cache has expired at `now`. -/
def NoExpired (s : BetterCache) (now : Instant) : Prop :=
  ∀ kv ∈ s.entries, ∀ t ∈ allTuples kv.2, now < t.2.2

/-- Number of live (unexpired) tuples of one entry at `now`. -/
def liveCount (e : CachedDomainRecords) (now : Instant) : Nat :=
  ((allTuples e).filter (fun t => now < t.2.2)).length

/-- Number of live tuples across the whole cache at `now`. -/
def totalLive (s : BetterCache) (now : Instant) : Nat :=
  (s.entries.map (fun kv => liveCount kv.2 now)).sum

/-! ## Concrete fixtures for counterexamples and witnesses -/

/-- Domain `x.com` of the scenarios. -/
def exDomX : DomainName := ⟨[[120]]⟩

/-- A second domain. -/
def exDomY : DomainName := ⟨[[121]]⟩

/-- An A-record for `exDomX` with the given TTL. -/
def exRecA (ttl : Duration) : ResourceRecord :=
  ⟨exDomX, .A 7, .IN, ttl⟩

/-- A CNAME record for `exDomX` with the given TTL. -/
def exRecC (ttl : Duration) : ResourceRecord :=
  ⟨exDomX, .CNAME exDomY, .IN, ttl⟩

/-- An A-record for `exDomY` with the given TTL. -/
def exRecY (ttl : Duration) : ResourceRecord :=
  ⟨exDomY, .A 9, .IN, ttl⟩

/-- The freshly constructed cache of capacity `c` (the value
`withDesiredSize` returns for positive `c`). -/
def emptyCache (c : Nat) : BetterCache := ⟨[], [], [], 0, c⟩

/-- Operation sequence whose final state has a stale (too high)
`next_expiry`: two inserts then a duplicate re-insert with a larger
TTL. -/
def exStaleOps : List CacheOp :=
  [.insert 0 (exRecA 10), .insert 0 (exRecC 20), .insert 0 (exRecA 30)]

/-- The stale-`next_expiry` state those operations reach from a
capacity-1 cache. -/
def exStaleState : BetterCache := applyOps (emptyCache 1) exStaleOps

/-- An over-capacity state with accurate `next_expiry` fields: two
domains in a capacity-1 cache, one already expired at instant 5. -/
def exOverState : BetterCache :=
  ((emptyCache 1).insert 0 (exRecA 0)).insert 0 (exRecY 100)

/-! ## Association-list lemmas -/

section KeysLemmas

variable {α : Type u} {β : Type v}

@[simp] theorem keysOf_nil : keysOf ([] : List (α × β)) = [] := rfl

@[simp] theorem keysOf_cons (x : α × β) (l : List (α × β)) :
    keysOf (x :: l) = x.1 :: keysOf l := rfl

@[simp] theorem keysOf_append (l1 l2 : List (α × β)) :
    keysOf (l1 ++ l2) = keysOf l1 ++ keysOf l2 := by
  simp [keysOf]

end KeysLemmas

section AssocLemmas

variable {α : Type u} {β : Type v} [DecidableEq α]

theorem mem_keysOf {l : List (α × β)} {k : α} :
    k ∈ keysOf l ↔ ∃ v, (k, v) ∈ l := by
  induction l with
  | nil => simp [keysOf]
  | cons x rest ih =>
    obtain ⟨a, b⟩ := x
    simp only [keysOf_cons, List.mem_cons, ih]
    constructor
    · rintro (rfl | ⟨v, hv⟩)
      · exact ⟨b, Or.inl rfl⟩
      · exact ⟨v, Or.inr hv⟩
    · rintro ⟨v, h | hv⟩
      · rw [Prod.mk.injEq] at h
        exact Or.inl h.1
      · exact Or.inr ⟨v, hv⟩

theorem lookupKey_eq_none {k : α} {l : List (α × β)} :
    lookupKey k l = none ↔ k ∉ keysOf l := by
  induction l with
  | nil => simp [lookupKey]
  | cons x rest ih =>
    obtain ⟨a, b⟩ := x
    by_cases h : a = k
    · subst h; simp [lookupKey]
    · simp [lookupKey, h, ih, Ne.symm h]

theorem lookupKey_mem {k : α} {v : β} {l : List (α × β)}
    (h : lookupKey k l = some v) : (k, v) ∈ l := by
  induction l with
  | nil => simp [lookupKey] at h
  | cons x rest ih =>
    obtain ⟨a, b⟩ := x
    by_cases hak : a = k
    · subst hak
      simp [lookupKey] at h
      simp [h]
    · simp only [lookupKey, if_neg hak] at h
      exact List.mem_cons_of_mem _ (ih h)

theorem lookupKey_split {k : α} {v : β} {l : List (α × β)}
    (h : lookupKey k l = some v) :
    ∃ l1 l2, l = l1 ++ (k, v) :: l2 ∧ k ∉ keysOf l1 := by
  induction l with
  | nil => simp [lookupKey] at h
  | cons x rest ih =>
    obtain ⟨a, b⟩ := x
    by_cases hak : a = k
    · subst hak
      simp [lookupKey] at h
      exact ⟨[], rest, by simp [h], by simp⟩
    · simp only [lookupKey, if_neg hak] at h
      obtain ⟨l1, l2, heq, hnm⟩ := ih h
      exact ⟨(a, b) :: l1, l2, by simp [heq], by simp [hnm, Ne.symm hak]⟩

theorem lookupKey_append_left {k : α} {l1 l2 : List (α × β)}
    (h : k ∉ keysOf l1) : lookupKey k (l1 ++ l2) = lookupKey k l2 := by
  induction l1 with
  | nil => simp
  | cons x rest ih =>
    obtain ⟨a, b⟩ := x
    simp only [keysOf_cons, List.mem_cons] at h
    push_neg at h
    simp [lookupKey, Ne.symm h.1, ih h.2]

@[simp] theorem lookupKey_cons_self {k : α} {v : β} {l : List (α × β)} :
    lookupKey k ((k, v) :: l) = some v := by
  simp [lookupKey]

theorem lookupKey_eq_some_of_split {k : α} {v : β} {l1 l2 : List (α × β)}
    (h : k ∉ keysOf l1) : lookupKey k (l1 ++ (k, v) :: l2) = some v := by
  rw [lookupKey_append_left h]; simp

theorem updateKey_append_left {k : α} {f : β → β} {l1 l2 : List (α × β)}
    (h : k ∉ keysOf l1) : updateKey k f (l1 ++ l2) = l1 ++ updateKey k f l2 := by
  induction l1 with
  | nil => simp
  | cons x rest ih =>
    obtain ⟨a, b⟩ := x
    simp only [keysOf_cons, List.mem_cons] at h
    push_neg at h
    simp [updateKey, Ne.symm h.1, ih h.2]

@[simp] theorem updateKey_cons_self {k : α} {f : β → β} {v : β} {l : List (α × β)} :
    updateKey k f ((k, v) :: l) = (k, f v) :: l := by
  simp [updateKey]

theorem removeKey_append_left {k : α} {l1 l2 : List (α × β)}
    (h : k ∉ keysOf l1) : removeKey k (l1 ++ l2) = l1 ++ removeKey k l2 := by
  induction l1 with
  | nil => simp
  | cons x rest ih =>
    obtain ⟨a, b⟩ := x
    simp only [keysOf_cons, List.mem_cons] at h
    push_neg at h
    simp [removeKey, Ne.symm h.1, ih h.2]

@[simp] theorem removeKey_cons_self {k : α} {v : β} {l : List (α × β)} :
    removeKey k ((k, v) :: l) = l := by
  simp [removeKey]

theorem updateKey_of_not_mem {k : α} {f : β → β} {l : List (α × β)}
    (h : k ∉ keysOf l) : updateKey k f l = l := by
  induction l with
  | nil => rfl
  | cons x rest ih =>
    obtain ⟨a, b⟩ := x
    simp only [keysOf_cons, List.mem_cons] at h
    push_neg at h
    simp [updateKey, Ne.symm h.1, ih h.2]

theorem removeKey_of_not_mem {k : α} {l : List (α × β)}
    (h : k ∉ keysOf l) : removeKey k l = l := by
  induction l with
  | nil => rfl
  | cons x rest ih =>
    obtain ⟨a, b⟩ := x
    simp only [keysOf_cons, List.mem_cons] at h
    push_neg at h
    simp [removeKey, Ne.symm h.1, ih h.2]

@[simp] theorem keysOf_updateKey {k : α} {f : β → β} {l : List (α × β)} :
    keysOf (updateKey k f l) = keysOf l := by
  induction l with
  | nil => rfl
  | cons x rest ih =>
    obtain ⟨a, b⟩ := x
    by_cases h : a = k <;> simp [updateKey, h, ih]

theorem lookupKey_updateKey_self {k : α} {f : β → β} {l : List (α × β)} :
    lookupKey k (updateKey k f l) = (lookupKey k l).map f := by
  induction l with
  | nil => rfl
  | cons x rest ih =>
    obtain ⟨a, b⟩ := x
    by_cases h : a = k <;> simp [updateKey, lookupKey, h, ih]

theorem lookupKey_updateKey_ne {k k' : α} {f : β → β} {l : List (α × β)}
    (h : k' ≠ k) : lookupKey k' (updateKey k f l) = lookupKey k' l := by
  induction l with
  | nil => rfl
  | cons x rest ih =>
    obtain ⟨a, b⟩ := x
    by_cases hak : a = k
    · subst hak
      simp [updateKey, lookupKey, Ne.symm h]
    · by_cases hak' : a = k' <;> simp [updateKey, lookupKey, hak, hak', ih, h]

theorem lookupKey_removeKey_ne {k k' : α} {l : List (α × β)}
    (h : k' ≠ k) : lookupKey k' (removeKey k l) = lookupKey k' l := by
  induction l with
  | nil => rfl
  | cons x rest ih =>
    obtain ⟨a, b⟩ := x
    by_cases hak : a = k
    · subst hak
      simp [removeKey, lookupKey, Ne.symm h]
    · by_cases hak' : a = k' <;> simp [removeKey, lookupKey, hak, hak', ih, h]

theorem removeKey_sublist (k : α) (l : List (α × β)) :
    List.Sublist (removeKey k l) l := by
  induction l with
  | nil => simp [removeKey]
  | cons x rest ih =>
    obtain ⟨a, b⟩ := x
    by_cases h : a = k
    · simp [removeKey, h]
    · simpa [removeKey, h] using List.Sublist.cons₂ (a, b) ih

theorem lookupKey_eq_some_of_mem {k : α} {v : β} {l : List (α × β)}
    (hmem : (k, v) ∈ l) (hnod : (keysOf l).Nodup) : lookupKey k l = some v := by
  induction l with
  | nil => simp at hmem
  | cons x rest ih =>
    obtain ⟨a, b⟩ := x
    rcases List.mem_cons.mp hmem with h | h
    · rw [Prod.mk.injEq] at h
      simp [lookupKey, h.1, h.2]
    · have hk : k ∈ keysOf rest := mem_keysOf.mpr ⟨v, h⟩
      have hna : a ≠ k := by
        rintro rfl
        exact (List.nodup_cons.mp hnod).1 hk
      simp only [lookupKey, if_neg hna]
      exact ih h (List.nodup_cons.mp hnod).2

end AssocLemmas

/-! ## Priority-queue lemmas -/

section PqLemmas

variable {α : Type u} [DecidableEq α]

theorem pqPop_eq_none_iff {l : List (α × Instant)} : pqPop l = none ↔ l = [] := by
  cases l with
  | nil => simp [pqPop]
  | cons x rest =>
    simp only [pqPop]
    cases h : pqPop rest with
    | none => simp
    | some yr =>
      simp only
      constructor
      · intro hc
        split at hc <;> simp at hc
      · intro hc
        simp at hc

/-- `pqPop` extracts an entry of minimal instant: the popped pair splits
the queue, the remainder is the queue with that occurrence removed, and
its instant is a lower bound for the whole queue. -/
theorem pqPop_split {l : List (α × Instant)} {y : α × Instant}
    {rest : List (α × Instant)} (h : pqPop l = some (y, rest)) :
    ∃ l1 l2, l = l1 ++ y :: l2 ∧ rest = l1 ++ l2 ∧ ∀ z ∈ l, y.2 ≤ z.2 := by
  induction l generalizing y rest with
  | nil => simp [pqPop] at h
  | cons x xs ih =>
    cases hx : pqPop xs with
    | none =>
      have hnil : xs = [] := pqPop_eq_none_iff.mp hx
      subst hnil
      simp only [pqPop] at h
      rcases Option.some.inj h with h2
      rw [Prod.mk.injEq] at h2
      obtain ⟨rfl, rfl⟩ := h2
      exact ⟨[], [], rfl, rfl, by simp⟩
    | some yr =>
      obtain ⟨y', rest'⟩ := yr
      obtain ⟨l1, l2, heq, hrest, hmin⟩ := ih hx
      rw [pqPop, hx] at h
      have h : (if x.2 ≤ y'.2 then some (x, xs)
          else some (y', x :: rest')) = some (y, rest) := h
      by_cases hle : x.2 ≤ y'.2
      · rw [if_pos hle] at h
        rcases Option.some.inj h with h2
        rw [Prod.mk.injEq] at h2
        obtain ⟨rfl, rfl⟩ := h2
        refine ⟨[], xs, rfl, rfl, ?_⟩
        intro z hz
        rcases List.mem_cons.mp hz with rfl | hz
        · exact le_refl _
        · exact le_trans hle (hmin z hz)
      · rw [if_neg hle] at h
        rcases Option.some.inj h with h2
        rw [Prod.mk.injEq] at h2
        obtain ⟨rfl, rfl⟩ := h2
        refine ⟨x :: l1, l2, by simp [heq], by simp [hrest], ?_⟩
        intro z hz
        rcases List.mem_cons.mp hz with rfl | hz
        · exact le_of_lt (lt_of_not_le hle)
        · exact hmin z hz

theorem keysOf_pqPush_of_not_mem {k : α} {p : Instant} {l : List (α × Instant)}
    (h : k ∉ keysOf l) : pqPush k p l = l ++ [(k, p)] := by
  simp [pqPush, h]

end PqLemmas

/-! ## `swapRemove`, `findIdxElem` and fold-minimum lemmas -/

section ListLemmas

theorem swapRemove_cons_succ {a : α} {l : List α} {i : Nat} (h : l ≠ []) :
    swapRemove (a :: l) (i + 1) = a :: swapRemove l i := by
  have hz : l.getLast? = some (l.getLast h) := List.getLast?_eq_getLast l h
  have h1 : (a :: l).getLast? = some (l.getLast h) := by
    cases l with
    | nil => exact absurd rfl h
    | cons b m => rw [show (a :: b :: m).getLast? = (b :: m).getLast? from rfl, hz]
  have hlen : (l.set i (l.getLast h)) ≠ [] := by
    intro hc
    apply h
    have := congrArg List.length hc
    simp only [List.length_set, List.length_nil] at this
    exact List.length_eq_zero.mp this
  simp only [swapRemove, h1, hz]
  rw [show ((a :: l).set (i + 1) (l.getLast h)) = a :: l.set i (l.getLast h) from rfl]
  rw [List.dropLast_cons_of_ne_nil hlen]

theorem swapRemove_perm {l : List α} {i : Nat} (h : i < l.length) :
    (swapRemove l i).Perm (l.eraseIdx i) := by
  induction l generalizing i with
  | nil => simp at h
  | cons a l ih =>
    cases i with
    | zero =>
      cases l with
      | nil => simp [swapRemove, List.eraseIdx]
      | cons b m =>
        have hbm : (b :: m : List α) ≠ [] := by simp
        have h1 : (a :: b :: m).getLast? = some ((b :: m).getLast hbm) := by
          rw [show (a :: b :: m).getLast? = (b :: m).getLast? from rfl]
          exact List.getLast?_eq_getLast _ hbm
        simp only [swapRemove, h1, List.set_cons_zero, List.eraseIdx]
        rw [List.dropLast_cons_of_ne_nil hbm]
        have hperm := (List.perm_append_singleton ((b :: m).getLast hbm)
          ((b :: m).dropLast)).symm
        rwa [List.dropLast_concat_getLast hbm] at hperm
    | succ i =>
      have hlen : i < l.length := by simpa using h
      have hne : l ≠ [] := by
        intro hc
        rw [hc] at hlen
        simp at hlen
      rw [swapRemove_cons_succ hne,
        show ((a :: l).eraseIdx (i + 1)) = a :: l.eraseIdx i from rfl]
      exact (ih hlen).cons a

/-- A found index/element: the element splits the list at position `i`,
with no earlier element satisfying the predicate. -/
theorem findIdxElem_split {p : α → Bool} {l : List α} {i : Nat} {x : α}
    (h : findIdxElem p l = some (i, x)) :
    p x = true ∧ ∃ l1 l2, l = l1 ++ x :: l2 ∧ l1.length = i ∧
      ∀ y ∈ l1, p y = false := by
  induction l generalizing i with
  | nil => simp [findIdxElem] at h
  | cons a rest ih =>
    cases hp : p a with
    | true =>
      rw [findIdxElem, if_pos hp] at h
      rcases Option.some.inj h with h2
      rw [Prod.mk.injEq] at h2
      obtain ⟨rfl, rfl⟩ := h2
      exact ⟨hp, [], rest, rfl, rfl, by simp⟩
    | false =>
      rw [findIdxElem, if_neg (by simp [hp]), Option.map_eq_some'] at h
      obtain ⟨⟨j, y⟩, hj, h2⟩ := h
      rw [Prod.mk.injEq] at h2
      obtain ⟨rfl, rfl⟩ := h2
      obtain ⟨hpy, l1, l2, heq, hlen, hfirst⟩ := ih hj
      refine ⟨hpy, a :: l1, l2, by simp [heq], by simp [hlen], ?_⟩
      intro z hz
      rcases List.mem_cons.mp hz with rfl | hz
      · exact hp
      · exact hfirst z hz

theorem findIdxElem_eq_none {p : α → Bool} {l : List α}
    (h : findIdxElem p l = none) : ∀ x ∈ l, p x = false := by
  induction l with
  | nil => simp
  | cons a rest ih =>
    cases hp : p a with
    | true => rw [findIdxElem, if_pos hp] at h; exact absurd h (by simp)
    | false =>
      rw [findIdxElem, if_neg (by simp [hp]), Option.map_eq_none'] at h
      intro x hx
      rcases List.mem_cons.mp hx with rfl | hx
      · exact hp
      · exact ih h x hx

theorem foldMin_le_init (l : List CachedTuple) (a : Instant) : foldMin l a ≤ a := by
  induction l generalizing a with
  | nil => exact le_refl a
  | cons t rest ih =>
    simp only [foldMin, List.foldl_cons]
    by_cases h : t.2.2 < a
    · simpa [foldMin, h] using le_trans (ih _) (le_of_lt h)
    · simpa [foldMin, h] using ih a

theorem foldMin_le_mem (l : List CachedTuple) (a : Instant) :
    ∀ t ∈ l, foldMin l a ≤ t.2.2 := by
  induction l generalizing a with
  | nil => simp
  | cons u rest ih =>
    intro t ht
    rcases List.mem_cons.mp ht with rfl | ht
    · simp only [foldMin, List.foldl_cons]
      by_cases h : t.2.2 < a
      · simpa [foldMin, h] using foldMin_le_init rest t.2.2
      · exact le_trans (by simpa [foldMin, h] using foldMin_le_init rest a)
          (le_of_not_lt h)
    · simp only [foldMin, List.foldl_cons]
      by_cases h : u.2.2 < a <;> simpa [foldMin, h] using ih _ t ht

theorem foldMin_eq_init_or_mem (l : List CachedTuple) (a : Instant) :
    foldMin l a = a ∨ ∃ t ∈ l, foldMin l a = t.2.2 := by
  induction l generalizing a with
  | nil => exact Or.inl rfl
  | cons u rest ih =>
    simp only [foldMin, List.foldl_cons]
    by_cases h : u.2.2 < a
    · rcases ih u.2.2 with h1 | ⟨t, ht, h1⟩
      · exact Or.inr ⟨u, List.mem_cons_self u rest, by simpa [foldMin, h] using h1⟩
      · exact Or.inr ⟨t, List.mem_cons_of_mem u ht, by simpa [foldMin, h] using h1⟩
    · rcases ih a with h1 | ⟨t, ht, h1⟩
      · exact Or.inl (by simpa [foldMin, h] using h1)
      · exact Or.inr ⟨t, List.mem_cons_of_mem u ht, by simpa [foldMin, h] using h1⟩

end ListLemmas

/-! ## Split utilities -/

section SplitLemmas

variable {α : Type u} {β : Type v} [DecidableEq α]

theorem nodup_split_not_mem {k : α} {v : β} {l1 l2 : List (α × β)}
    (h : (keysOf (l1 ++ (k, v) :: l2)).Nodup) :
    k ∉ keysOf l1 ∧ k ∉ keysOf l2 := by
  simp only [keysOf_append, keysOf_cons] at h
  constructor
  · intro hk
    exact (List.disjoint_of_nodup_append h) hk (by simp)
  · exact (List.nodup_cons.mp (List.Nodup.of_append_right h)).1

theorem mem_key_of_mem {kv : α × β} {l : List (α × β)} (h : kv ∈ l) :
    kv.1 ∈ keysOf l :=
  List.mem_map_of_mem Prod.fst h

theorem key_ne_of_mem_of_not_mem {k : α} {kv : α × β} {l : List (α × β)}
    (h : kv ∈ l) (hk : k ∉ keysOf l) : kv.1 ≠ k := by
  intro hc
  exact hk (hc ▸ mem_key_of_mem h)

theorem key_ne_of_mem_append {k : α} {kv : α × β} {l1 l2 : List (α × β)}
    (h : kv ∈ l1 ++ l2) (h1 : k ∉ keysOf l1) (h2 : k ∉ keysOf l2) :
    kv.1 ≠ k := by
  rcases List.mem_append.mp h with h | h
  · exact key_ne_of_mem_of_not_mem h h1
  · exact key_ne_of_mem_of_not_mem h h2

/-- A successful lookup on a duplicate-free association list splits the
list, with `k` occurring in neither side part. -/
theorem lookup_nodup_split {k : α} {v : β} {l : List (α × β)}
    (h : lookupKey k l = some v) (hnod : (keysOf l).Nodup) :
    ∃ l1 l2, l = l1 ++ (k, v) :: l2 ∧ k ∉ keysOf l1 ∧ k ∉ keysOf l2 := by
  obtain ⟨l1, l2, rfl, h1⟩ := lookupKey_split h
  obtain ⟨h1', h2⟩ := nodup_split_not_mem hnod
  exact ⟨l1, l2, rfl, h1', h2⟩

theorem mem_split_cases {l1 l2 : List (α × β)} {x kv : α × β}
    (h : kv ∈ l1 ++ x :: l2) : kv = x ∨ kv ∈ l1 ++ l2 := by
  rcases List.mem_append.mp h with h | h
  · exact Or.inr (List.mem_append.mpr (Or.inl h))
  · rcases List.mem_cons.mp h with h | h
    · exact Or.inl h
    · exact Or.inr (List.mem_append.mpr (Or.inr h))

theorem mem_of_mem_sides {l1 l2 : List (α × β)} {x kv : α × β}
    (h : kv ∈ l1 ++ l2) : kv ∈ l1 ++ x :: l2 := by
  rcases List.mem_append.mp h with h | h
  · exact List.mem_append.mpr (Or.inl h)
  · exact List.mem_append.mpr (Or.inr (List.mem_cons_of_mem _ h))

theorem mem_split_self {l1 l2 : List (α × β)} {x : α × β} :
    x ∈ l1 ++ x :: l2 :=
  List.mem_append.mpr (Or.inr (List.mem_cons_self _ _))

end SplitLemmas

/-! ## Characterisation of `get` -/

section GetLemmas

variable {s : BetterCache} {now : Instant} {name : DomainName}
  {qtype : QueryType} {qclass : QueryClass} {e : CachedDomainRecords}

theorem get_of_absent (h : lookupKey name s.entries = none) :
    s.get now name qtype qclass = ([], s) := by
  simp [BetterCache.get, h]

theorem get_of_empty (h : lookupKey name s.entries = some e)
    (hrrs : getRrs e now name qtype qclass = []) :
    s.get now name qtype qclass = ([], s) := by
  simp [BetterCache.get, h, hrrs]

theorem get_of_hit (h : lookupKey name s.entries = some e)
    (hrrs : getRrs e now name qtype qclass ≠ []) :
    s.get now name qtype qclass =
      (getRrs e now name qtype qclass,
        { s with
          entries := updateKey name
            (fun en => { en with last_read := now }) s.entries
          access_priority := pqChangePriority name now s.access_priority }) := by
  have hne : (getRrs e now name qtype qclass).isEmpty = false := by
    simpa [List.isEmpty_iff] using hrrs
  simp [BetterCache.get, h, hne]

/-- `get` preserves the structural invariant. -/
theorem inv_get (s : BetterCache) (now : Instant) (name : DomainName)
    (qtype : QueryType) (qclass : QueryClass) (hI : Inv s) :
    Inv (s.get now name qtype qclass).2 := by
  cases hE : lookupKey name s.entries with
  | none => rw [get_of_absent hE]; exact hI
  | some e =>
    by_cases hrrs : getRrs e now name qtype qclass = []
    · rw [get_of_empty hE hrrs]; exact hI
    · rw [get_of_hit hE hrrs]
      obtain ⟨E1, E2, hsplit, hn1, hn2⟩ := lookup_nodup_split hE hI.nodupE
      have hupd : updateKey name (fun en => { en with last_read := now }) s.entries
          = E1 ++ (name, { e with last_read := now }) :: E2 := by
        rw [hsplit, updateKey_append_left hn1, updateKey_cons_self]
      have hmemE : ∀ kv ∈ E1 ++ (name, { e with last_read := now }) :: E2,
          kv = (name, { e with last_read := now }) ∨
            (kv ∈ s.entries ∧ kv.1 ≠ name) := by
        intro kv hkv
        rcases mem_split_cases hkv with h | h
        · exact Or.inl h
        · exact Or.inr ⟨hsplit ▸ mem_of_mem_sides h, key_ne_of_mem_append h hn1 hn2⟩
      have hmemSelf : (name, e) ∈ s.entries := hsplit ▸ mem_split_self
      refine ⟨?_, ?_, ?_, ?_, ?_, ?_, ?_, ?_, ?_, ?_, ?_, ?_, ?_, ?_, ?_⟩
      · simpa [keysOf_updateKey] using hI.nodupE
      · simpa [pqChangePriority, keysOf_updateKey] using hI.nodupA
      · exact hI.nodupX
      · intro n hn
        simp only [pqChangePriority, keysOf_updateKey] at hn ⊢
        exact hI.keysAE n hn
      · intro n hn
        simp only [pqChangePriority, keysOf_updateKey] at hn ⊢
        exact hI.keysEA n hn
      · intro n hn
        simp only [keysOf_updateKey] at hn ⊢
        exact hI.keysXE n hn
      · intro n hn
        simp only [keysOf_updateKey] at hn ⊢
        exact hI.keysEX n hn
      · show s.current_size = _
        have h0 := hI.sizeSum
        rw [hsplit] at h0
        rw [hupd]
        simpa using h0
      · rw [hupd]
        intro kv hkv
        rcases hmemE kv hkv with rfl | ⟨hmem, _⟩
        · exact hI.sizeCount (name, e) hmemSelf
        · exact hI.sizeCount kv hmem
      · rw [hupd]
        intro kv hkv
        rcases hmemE kv hkv with rfl | ⟨hmem, _⟩
        · exact hI.sizePos (name, e) hmemSelf
        · exact hI.sizePos kv hmem
      · rw [hupd]
        intro kv hkv
        rcases hmemE kv hkv with rfl | ⟨hmem, _⟩
        · exact hI.neMem (name, e) hmemSelf
        · exact hI.neMem kv hmem
      · rw [hupd]
        intro kv hkv
        rcases hmemE kv hkv with rfl | ⟨hmem, _⟩
        · exact hI.syncX (name, e) hmemSelf
        · exact hI.syncX kv hmem
      · rw [hupd]
        intro kv hkv
        rcases hmemE kv hkv with rfl | ⟨hmem, hne⟩
        · show lookupKey name (pqChangePriority name now s.access_priority) = some now
          rw [pqChangePriority, lookupKey_updateKey_self,
            hI.syncA (name, e) hmemSelf]
          rfl
        · show lookupKey kv.1 (pqChangePriority name now s.access_priority) = _
          rw [pqChangePriority, lookupKey_updateKey_ne hne]
          exact hI.syncA kv hmem
      · rw [hupd]
        intro kv hkv
        rcases hmemE kv hkv with rfl | ⟨hmem, _⟩
        · exact hI.nodupG (name, e) hmemSelf
        · exact hI.nodupG kv hmem
      · rw [hupd]
        intro kv hkv
        rcases hmemE kv hkv with rfl | ⟨hmem, _⟩
        · exact hI.uniqG (name, e) hmemSelf
        · exact hI.uniqG kv hmem

end GetLemmas

/-! ## Characterisation of `insert` -/

section InsertLemmas

variable {s : BetterCache} {now : Instant} {record : ResourceRecord}
  {entry : CachedDomainRecords} {tuples : List CachedTuple}
  {i : Nat} {t : CachedTuple}

theorem insert_of_absent (hE : lookupKey record.name s.entries = none) :
    s.insert now record =
      { s with
        entries := s.entries ++
          [(record.name,
            { last_read := now
              next_expiry := now + record.ttl
              size := 1
              records := [(record.rtype.rtype,
                [(record.rtype, record.rclass, now + record.ttl)])] })]
        access_priority := pqPush record.name now s.access_priority
        expiry_priority := pqPush record.name (now + record.ttl) s.expiry_priority
        current_size := s.current_size + 1 } := by
  simp [BetterCache.insert, hE]

theorem insert_of_new_group (hE : lookupKey record.name s.entries = some entry)
    (hG : lookupKey record.rtype.rtype entry.records = none) :
    s.insert now record =
      { s with
        entries := updateKey record.name (fun _ =>
          { last_read := now
            next_expiry := if now + record.ttl < entry.next_expiry
              then now + record.ttl else entry.next_expiry
            size := entry.size + 1
            records := entry.records ++ [(record.rtype.rtype,
              [(record.rtype, record.rclass, now + record.ttl)])] }) s.entries
        access_priority := pqChangePriority record.name now s.access_priority
        expiry_priority := if now + record.ttl < entry.next_expiry
          then pqChangePriority record.name (now + record.ttl) s.expiry_priority
          else s.expiry_priority
        current_size := s.current_size + 1 } := by
  by_cases hlt : now + record.ttl < entry.next_expiry <;>
    simp [BetterCache.insert, hE, hG, hlt]

theorem insert_of_no_dup (hE : lookupKey record.name s.entries = some entry)
    (hG : lookupKey record.rtype.rtype entry.records = some tuples)
    (hF : findIdxElem (dupPred record) tuples = none) :
    s.insert now record =
      { s with
        entries := updateKey record.name (fun _ =>
          { last_read := now
            next_expiry := if now + record.ttl < entry.next_expiry
              then now + record.ttl else entry.next_expiry
            size := entry.size + 1
            records := updateKey record.rtype.rtype
              (fun ts => ts ++ [(record.rtype, record.rclass, now + record.ttl)])
              entry.records }) s.entries
        access_priority := pqChangePriority record.name now s.access_priority
        expiry_priority := if now + record.ttl < entry.next_expiry
          then pqChangePriority record.name (now + record.ttl) s.expiry_priority
          else s.expiry_priority
        current_size := s.current_size + 1 } := by
  by_cases hlt : now + record.ttl < entry.next_expiry <;>
    simp [BetterCache.insert, hE, hG, hF, hlt]

theorem insert_of_dup_eq (hE : lookupKey record.name s.entries = some entry)
    (hG : lookupKey record.rtype.rtype entry.records = some tuples)
    (hF : findIdxElem (dupPred record) tuples = some (i, t))
    (hD : t.2.2 = entry.next_expiry) :
    s.insert now record =
      { s with
        entries := updateKey record.name (fun _ =>
          { last_read := now
            next_expiry := foldMin
              (swapRemove tuples i ++ [(record.rtype, record.rclass, now + record.ttl)])
              (now + record.ttl)
            size := entry.size - 1 + 1
            records := updateKey record.rtype.rtype
              (fun _ => swapRemove tuples i ++
                [(record.rtype, record.rclass, now + record.ttl)])
              entry.records }) s.entries
        access_priority := pqChangePriority record.name now s.access_priority
        expiry_priority := pqChangePriority record.name
          (foldMin (swapRemove tuples i ++
            [(record.rtype, record.rclass, now + record.ttl)]) (now + record.ttl))
          s.expiry_priority
        current_size := s.current_size - 1 + 1 } := by
  have hnlt : ¬ (now + record.ttl < foldMin (swapRemove tuples i)
      (now + record.ttl)) :=
    not_lt.mpr (foldMin_le_init _ _)
  simp only [foldMin] at hnlt
  simp [BetterCache.insert, hE, hG, hF, hD, lookupKey_updateKey_self, foldMin, hnlt]

theorem insert_of_dup_ne (hE : lookupKey record.name s.entries = some entry)
    (hG : lookupKey record.rtype.rtype entry.records = some tuples)
    (hF : findIdxElem (dupPred record) tuples = some (i, t))
    (hD : t.2.2 ≠ entry.next_expiry) :
    s.insert now record =
      { s with
        entries := updateKey record.name (fun _ =>
          { last_read := now
            next_expiry := if now + record.ttl < entry.next_expiry
              then now + record.ttl else entry.next_expiry
            size := entry.size - 1 + 1
            records := updateKey record.rtype.rtype
              (fun _ => swapRemove tuples i ++
                [(record.rtype, record.rclass, now + record.ttl)])
              entry.records }) s.entries
        access_priority := pqChangePriority record.name now s.access_priority
        expiry_priority := if now + record.ttl < entry.next_expiry
          then pqChangePriority record.name (now + record.ttl) s.expiry_priority
          else s.expiry_priority
        current_size := s.current_size - 1 + 1 } := by
  by_cases hlt : now + record.ttl < entry.next_expiry <;>
    simp [BetterCache.insert, hE, hG, hF, hD, hlt]

end InsertLemmas

/-! ## Invariant preservation by `insert` -/

section InsertInv

theorem lookupKey_append_of_some {α : Type u} {β : Type v} [DecidableEq α]
    {k : α} {v : β} {l1 l2 : List (α × β)} (h : lookupKey k l1 = some v) :
    lookupKey k (l1 ++ l2) = some v := by
  induction l1 with
  | nil => simp [lookupKey] at h
  | cons x rest ih =>
    obtain ⟨a, b⟩ := x
    by_cases hak : a = k
    · subst hak
      simp [lookupKey] at h ⊢
      exact h
    · simp only [List.cons_append, lookupKey, if_neg hak] at h ⊢
      exact ih h

theorem entry_size_le_current {s : BetterCache} {name : DomainName}
    {e : CachedDomainRecords} (hI : Inv s) (hmem : (name, e) ∈ s.entries) :
    e.size ≤ s.current_size := by
  rw [hI.sizeSum]
  exact List.single_le_sum (by simp) _
    (List.mem_map_of_mem (fun kv => kv.2.size) hmem)

/-- Generic invariant preservation for the `insert` paths that replace
one existing entry and re-key the priority queues at that domain. -/
theorem inv_update_entry {s : BetterCache} {now : Instant} {name : DomainName}
    {e e' : CachedDomainRecords} {X : List (DomainName × Instant)} {c' : Nat}
    (hI : Inv s)
    (hE : lookupKey name s.entries = some e)
    (hsz : e'.size = tupleCount e')
    (hpos : 1 ≤ tupleCount e')
    (hnem : e'.next_expiry ∈ expiriesOf e')
    (hlast : e'.last_read = now)
    (hng : (keysOf e'.records).Nodup)
    (huq : ∀ g ∈ e'.records,
      g.2.Pairwise (fun a b => ¬(a.1 = b.1 ∧ a.2.1 = b.2.1)))
    (hdelta : c' + e.size = s.current_size + e'.size)
    (hX : (X = s.expiry_priority ∧ e'.next_expiry = e.next_expiry) ∨
          X = pqChangePriority name e'.next_expiry s.expiry_priority) :
    Inv { s with
      entries := updateKey name (fun _ => e') s.entries
      access_priority := pqChangePriority name now s.access_priority
      expiry_priority := X
      current_size := c' } := by
  obtain ⟨E1, E2, hsplit, hn1, hn2⟩ := lookup_nodup_split hE hI.nodupE
  have hupd : updateKey name (fun _ => e') s.entries
      = E1 ++ (name, e') :: E2 := by
    rw [hsplit, updateKey_append_left hn1, updateKey_cons_self]
  have hmemE : ∀ kv ∈ E1 ++ (name, e') :: E2,
      kv = (name, e') ∨ (kv ∈ s.entries ∧ kv.1 ≠ name) := by
    intro kv hkv
    rcases mem_split_cases hkv with h | h
    · exact Or.inl h
    · exact Or.inr ⟨hsplit ▸ mem_of_mem_sides h, key_ne_of_mem_append h hn1 hn2⟩
  have hmemSelf : (name, e) ∈ s.entries := hsplit ▸ mem_split_self
  have hkX : keysOf X = keysOf s.expiry_priority := by
    rcases hX with ⟨rfl, _⟩ | rfl
    · rfl
    · exact keysOf_updateKey
  have hnodX : (keysOf X).Nodup := hkX ▸ hI.nodupX
  have hlookX : ∀ n ≠ name, lookupKey n X = lookupKey n s.expiry_priority := by
    intro n hn
    rcases hX with ⟨rfl, _⟩ | rfl
    · rfl
    · exact lookupKey_updateKey_ne hn
  have hlookXname : lookupKey name X = some e'.next_expiry := by
    rcases hX with ⟨rfl, hsame⟩ | rfl
    · rw [hsame]
      exact hI.syncX (name, e) hmemSelf
    · rw [pqChangePriority, lookupKey_updateKey_self,
        hI.syncX (name, e) hmemSelf]
      rfl
  refine ⟨?_, ?_, ?_, ?_, ?_, ?_, ?_, ?_, ?_, ?_, ?_, ?_, ?_, ?_, ?_⟩
  · simpa [keysOf_updateKey] using hI.nodupE
  · simpa [pqChangePriority, keysOf_updateKey] using hI.nodupA
  · exact hnodX
  · intro n hn
    simp only [pqChangePriority, keysOf_updateKey] at hn ⊢
    exact hI.keysAE n hn
  · intro n hn
    simp only [pqChangePriority, keysOf_updateKey] at hn ⊢
    exact hI.keysEA n hn
  · intro n hn
    simp only [keysOf_updateKey] at hn ⊢
    rw [hkX] at hn
    exact hI.keysXE n hn
  · intro n hn
    simp only [keysOf_updateKey] at hn ⊢
    rw [hkX]
    exact hI.keysEX n hn
  · show c' = _
    have h0 := hI.sizeSum
    rw [hsplit] at h0
    simp only [List.map_append, List.sum_append, List.map_cons,
      List.sum_cons] at h0
    rw [hupd]
    simp only [List.map_append, List.sum_append, List.map_cons, List.sum_cons]
    omega
  · rw [hupd]
    intro kv hkv
    rcases hmemE kv hkv with rfl | ⟨hmem, _⟩
    · exact hsz
    · exact hI.sizeCount kv hmem
  · rw [hupd]
    intro kv hkv
    rcases hmemE kv hkv with rfl | ⟨hmem, _⟩
    · exact hpos
    · exact hI.sizePos kv hmem
  · rw [hupd]
    intro kv hkv
    rcases hmemE kv hkv with rfl | ⟨hmem, _⟩
    · exact hnem
    · exact hI.neMem kv hmem
  · rw [hupd]
    intro kv hkv
    rcases hmemE kv hkv with rfl | ⟨hmem, hne⟩
    · exact hlookXname
    · rw [hlookX kv.1 hne]
      exact hI.syncX kv hmem
  · rw [hupd]
    intro kv hkv
    rcases hmemE kv hkv with rfl | ⟨hmem, hne⟩
    · show lookupKey name (pqChangePriority name now s.access_priority) = some _
      rw [pqChangePriority, lookupKey_updateKey_self,
        hI.syncA (name, e) hmemSelf, hlast]
      rfl
    · show lookupKey kv.1 (pqChangePriority name now s.access_priority) = _
      rw [pqChangePriority, lookupKey_updateKey_ne hne]
      exact hI.syncA kv hmem
  · rw [hupd]
    intro kv hkv
    rcases hmemE kv hkv with rfl | ⟨hmem, _⟩
    · exact hng
    · exact hI.nodupG kv hmem
  · rw [hupd]
    intro kv hkv
    rcases hmemE kv hkv with rfl | ⟨hmem, _⟩
    · exact huq
    · exact hI.uniqG kv hmem

theorem inv_insert_fresh {s : BetterCache} {now : Instant}
    {record : ResourceRecord} (hI : Inv s)
    (hE : lookupKey record.name s.entries = none) :
    Inv (s.insert now record) := by
  rw [insert_of_absent hE]
  have hnE : record.name ∉ keysOf s.entries := lookupKey_eq_none.mp hE
  have hnA : record.name ∉ keysOf s.access_priority :=
    fun h => hnE (hI.keysAE _ h)
  have hnX : record.name ∉ keysOf s.expiry_priority :=
    fun h => hnE (hI.keysXE _ h)
  have hA : pqPush record.name now s.access_priority
      = s.access_priority ++ [(record.name, now)] :=
    keysOf_pqPush_of_not_mem hnA
  have hX : pqPush record.name (now + record.ttl) s.expiry_priority
      = s.expiry_priority ++ [(record.name, now + record.ttl)] :=
    keysOf_pqPush_of_not_mem hnX
  have happ : ∀ {l : List DomainName} {k : DomainName}, k ∉ l → l.Nodup →
      (l ++ [k]).Nodup := by
    intro l k hk hl
    exact List.Nodup.append hl (List.nodup_singleton k)
      (fun a ha hb => by
        rw [List.mem_singleton] at hb
        exact hk (hb ▸ ha))
  have hmemE : ∀ kv ∈ s.entries ++ [(record.name,
      ({ last_read := now, next_expiry := now + record.ttl, size := 1,
         records := [(record.rtype.rtype,
           [(record.rtype, record.rclass, now + record.ttl)])] } :
        CachedDomainRecords))],
      kv ∈ s.entries ∨ kv = (record.name,
        ({ last_read := now, next_expiry := now + record.ttl, size := 1,
           records := [(record.rtype.rtype,
             [(record.rtype, record.rclass, now + record.ttl)])] } :
          CachedDomainRecords)) := by
    intro kv hkv
    rcases List.mem_append.mp hkv with h | h
    · exact Or.inl h
    · exact Or.inr (List.mem_singleton.mp h)
  have hkeyne : ∀ kv ∈ s.entries,
      (kv : DomainName × CachedDomainRecords).1 ≠ record.name :=
    fun kv hkv => key_ne_of_mem_of_not_mem hkv hnE
  rw [hA, hX]
  refine ⟨?_, ?_, ?_, ?_, ?_, ?_, ?_, ?_, ?_, ?_, ?_, ?_, ?_, ?_, ?_⟩
  · simp only [keysOf_append, keysOf_cons, keysOf_nil]
    exact happ hnE hI.nodupE
  · simp only [keysOf_append, keysOf_cons, keysOf_nil]
    exact happ hnA hI.nodupA
  · simp only [keysOf_append, keysOf_cons, keysOf_nil]
    exact happ hnX hI.nodupX
  · intro n hn
    simp only [keysOf_append, keysOf_cons, keysOf_nil, List.mem_append,
      List.mem_singleton] at hn ⊢
    rcases hn with hn | hn
    · exact Or.inl (hI.keysAE n hn)
    · exact Or.inr hn
  · intro n hn
    simp only [keysOf_append, keysOf_cons, keysOf_nil, List.mem_append,
      List.mem_singleton] at hn ⊢
    rcases hn with hn | hn
    · exact Or.inl (hI.keysEA n hn)
    · exact Or.inr hn
  · intro n hn
    simp only [keysOf_append, keysOf_cons, keysOf_nil, List.mem_append,
      List.mem_singleton] at hn ⊢
    rcases hn with hn | hn
    · exact Or.inl (hI.keysXE n hn)
    · exact Or.inr hn
  · intro n hn
    simp only [keysOf_append, keysOf_cons, keysOf_nil, List.mem_append,
      List.mem_singleton] at hn ⊢
    rcases hn with hn | hn
    · exact Or.inl (hI.keysEX n hn)
    · exact Or.inr hn
  · show s.current_size + 1 = _
    have h0 := hI.sizeSum
    simp only [List.map_append, List.sum_append, List.map_cons, List.sum_cons,
      List.map_nil, List.sum_nil]
    omega
  · intro kv hkv
    rcases hmemE kv hkv with h | rfl
    · exact hI.sizeCount kv h
    · simp [tupleCount]
  · intro kv hkv
    rcases hmemE kv hkv with h | rfl
    · exact hI.sizePos kv h
    · simp [tupleCount]
  · intro kv hkv
    rcases hmemE kv hkv with h | rfl
    · exact hI.neMem kv h
    · simp [expiriesOf, allTuples]
  · intro kv hkv
    rcases hmemE kv hkv with h | rfl
    · exact lookupKey_append_of_some (hI.syncX kv h)
    · rw [lookupKey_append_left hnX]
      simp
  · intro kv hkv
    rcases hmemE kv hkv with h | rfl
    · exact lookupKey_append_of_some (hI.syncA kv h)
    · rw [lookupKey_append_left hnA]
      simp
  · intro kv hkv
    rcases hmemE kv hkv with h | rfl
    · exact hI.nodupG kv h
    · simp [keysOf]
  · intro kv hkv
    rcases hmemE kv hkv with h | rfl
    · exact hI.uniqG kv h
    · intro g hg
      rcases List.mem_singleton.mp hg with rfl
      exact List.pairwise_singleton _ _

theorem nodup_append_singleton {α : Type u} {l : List α} {k : α}
    (hk : k ∉ l) (hl : l.Nodup) : (l ++ [k]).Nodup :=
  List.Nodup.append hl (List.nodup_singleton k)
    (fun a ha hb => by
      rw [List.mem_singleton] at hb
      exact hk (hb ▸ ha))

theorem eraseIdx_append_length {α : Type u} {l1 l2 : List α} {x : α} :
    (l1 ++ x :: l2).eraseIdx l1.length = l1 ++ l2 := by
  induction l1 with
  | nil => rfl
  | cons a rest ih =>
    show a :: ((rest ++ x :: l2).eraseIdx rest.length) = a :: (rest ++ l2)
    rw [ih]

theorem swapRemove_perm_split {α : Type u} {l1 l2 : List α} {x : α} :
    (swapRemove (l1 ++ x :: l2) l1.length).Perm (l1 ++ l2) := by
  have h : l1.length < (l1 ++ x :: l2).length := by simp
  have hp := swapRemove_perm h
  rwa [eraseIdx_append_length] at hp

theorem expiriesOf_split {e : CachedDomainRecords}
    {G1 G2 : List (RecordType × List CachedTuple)} {rt : RecordType}
    {ts : List CachedTuple} (he : e.records = G1 ++ (rt, ts) :: G2) :
    expiriesOf e = ((G1.map (fun g => g.2)).flatten.map (fun t => t.2.2)) ++
      (ts.map (fun t => t.2.2) ++
        ((G2.map (fun g => g.2)).flatten.map (fun t => t.2.2))) := by
  simp [expiriesOf, allTuples, he]

theorem tupleCount_split {e : CachedDomainRecords}
    {G1 G2 : List (RecordType × List CachedTuple)} {rt : RecordType}
    {ts : List CachedTuple} (he : e.records = G1 ++ (rt, ts) :: G2) :
    tupleCount e = (G1.map (fun g => g.2.length)).sum + ts.length +
      (G2.map (fun g => g.2.length)).sum := by
  simp [tupleCount, he]
  omega

theorem inv_insert_new_group {s : BetterCache} {now : Instant}
    {record : ResourceRecord} {entry : CachedDomainRecords} (hI : Inv s)
    (hE : lookupKey record.name s.entries = some entry)
    (hG : lookupKey record.rtype.rtype entry.records = none) :
    Inv (s.insert now record) := by
  rw [insert_of_new_group hE hG]
  have hmemSelf : (record.name, entry) ∈ s.entries := lookupKey_mem hE
  have hszE : entry.size = tupleCount entry := hI.sizeCount _ hmemSelf
  have hrt : record.rtype.rtype ∉ keysOf entry.records := lookupKey_eq_none.mp hG
  have hcount : ∀ ne : Instant, tupleCount
      ({ last_read := now, next_expiry := ne, size := entry.size + 1,
         records := entry.records ++ [(record.rtype.rtype,
           [(record.rtype, record.rclass, now + record.ttl)])] } :
        CachedDomainRecords) = tupleCount entry + 1 := by
    intro ne
    simp [tupleCount]
  have hexp : ∀ ne : Instant, expiriesOf
      ({ last_read := now, next_expiry := ne, size := entry.size + 1,
         records := entry.records ++ [(record.rtype.rtype,
           [(record.rtype, record.rclass, now + record.ttl)])] } :
        CachedDomainRecords) = expiriesOf entry ++ [now + record.ttl] := by
    intro ne
    simp [expiriesOf, allTuples]
  have hng : (keysOf (entry.records ++ [(record.rtype.rtype,
      [(record.rtype, record.rclass, now + record.ttl)])])).Nodup := by
    simp only [keysOf_append, keysOf_cons, keysOf_nil]
    exact nodup_append_singleton hrt (hI.nodupG _ hmemSelf)
  have huq : ∀ g ∈ entry.records ++ [(record.rtype.rtype,
      [(record.rtype, record.rclass, now + record.ttl)])],
      g.2.Pairwise (fun a b => ¬(a.1 = b.1 ∧ a.2.1 = b.2.1)) := by
    intro g hg
    rcases List.mem_append.mp hg with h | h
    · exact hI.uniqG _ hmemSelf g h
    · rcases List.mem_singleton.mp h with rfl
      exact List.pairwise_singleton _ _
  by_cases hlt : now + record.ttl < entry.next_expiry
  · simp only [if_pos hlt]
    exact inv_update_entry hI hE
      (by rw [hcount]; show entry.size + 1 = tupleCount entry + 1; omega)
      (by rw [hcount]; omega)
      (by rw [hexp]; simp)
      rfl hng huq
      (by show s.current_size + 1 + entry.size
            = s.current_size + (entry.size + 1); omega)
      (Or.inr rfl)
  · simp only [if_neg hlt]
    exact inv_update_entry hI hE
      (by rw [hcount]; show entry.size + 1 = tupleCount entry + 1; omega)
      (by rw [hcount]; omega)
      (by rw [hexp]
          exact List.mem_append.mpr (Or.inl (hI.neMem _ hmemSelf)))
      rfl hng huq
      (by show s.current_size + 1 + entry.size
            = s.current_size + (entry.size + 1); omega)
      (Or.inl ⟨rfl, rfl⟩)

theorem dupPred_false_iff {record : ResourceRecord} {u : CachedTuple} :
    dupPred record u = false ↔ ¬(u.1 = record.rtype ∧ u.2.1 = record.rclass) := by
  simp [dupPred]

theorem dupPred_true_iff {record : ResourceRecord} {u : CachedTuple} :
    dupPred record u = true ↔ u.1 = record.rtype ∧ u.2.1 = record.rclass := by
  simp [dupPred]

theorem inv_insert_no_dup {s : BetterCache} {now : Instant}
    {record : ResourceRecord} {entry : CachedDomainRecords}
    {tuples : List CachedTuple} (hI : Inv s)
    (hE : lookupKey record.name s.entries = some entry)
    (hG : lookupKey record.rtype.rtype entry.records = some tuples)
    (hF : findIdxElem (dupPred record) tuples = none) :
    Inv (s.insert now record) := by
  rw [insert_of_no_dup hE hG hF]
  have hmemSelf : (record.name, entry) ∈ s.entries := lookupKey_mem hE
  have hszE : entry.size = tupleCount entry := hI.sizeCount _ hmemSelf
  have hngE : (keysOf entry.records).Nodup := hI.nodupG _ hmemSelf
  obtain ⟨G1, G2, hrec, hg1, hg2⟩ := lookup_nodup_split hG hngE
  have hupdG : updateKey record.rtype.rtype
      (fun ts => ts ++ [(record.rtype, record.rclass, now + record.ttl)])
      entry.records
      = G1 ++ (record.rtype.rtype,
          tuples ++ [(record.rtype, record.rclass, now + record.ttl)]) :: G2 := by
    rw [hrec, updateKey_append_left hg1, updateKey_cons_self]
  have hcnt : ∀ ne : Instant, tupleCount
      ({ last_read := now, next_expiry := ne, size := entry.size + 1,
         records := updateKey record.rtype.rtype
           (fun ts => ts ++ [(record.rtype, record.rclass, now + record.ttl)])
           entry.records } : CachedDomainRecords) = tupleCount entry + 1 := by
    intro ne
    simp only [tupleCount]
    rw [hupdG, hrec]
    simp
    omega
  have hexpmem : ∀ ne : Instant, ∀ v : Instant,
      (v ∈ expiriesOf entry ∨ v = now + record.ttl) →
      v ∈ expiriesOf
        ({ last_read := now, next_expiry := ne, size := entry.size + 1,
           records := updateKey record.rtype.rtype
             (fun ts => ts ++ [(record.rtype, record.rclass, now + record.ttl)])
             entry.records } : CachedDomainRecords) := by
    intro ne v hv
    have hrecE : ({ last_read := now, next_expiry := ne, size := entry.size + 1,
                    records := updateKey record.rtype.rtype
                      (fun ts => ts ++
                        [(record.rtype, record.rclass, now + record.ttl)])
                      entry.records } : CachedDomainRecords).records
        = G1 ++ (record.rtype.rtype,
            tuples ++ [(record.rtype, record.rclass, now + record.ttl)]) :: G2 :=
      hupdG
    rw [expiriesOf_split hrecE]
    rw [expiriesOf_split hrec] at hv
    rcases hv with hv | rfl
    · rcases List.mem_append.mp hv with h | h
      · exact List.mem_append.mpr (Or.inl h)
      · rcases List.mem_append.mp h with h | h
        · refine List.mem_append.mpr (Or.inr (List.mem_append.mpr (Or.inl ?_)))
          rw [List.map_append]
          exact List.mem_append.mpr (Or.inl h)
        · exact List.mem_append.mpr (Or.inr (List.mem_append.mpr (Or.inr h)))
    · refine List.mem_append.mpr (Or.inr (List.mem_append.mpr (Or.inl ?_)))
      simp
  have hng : ∀ ne : Instant, (keysOf
      ({ last_read := now, next_expiry := ne, size := entry.size + 1,
         records := updateKey record.rtype.rtype
           (fun ts => ts ++ [(record.rtype, record.rclass, now + record.ttl)])
           entry.records } : CachedDomainRecords).records).Nodup := by
    intro ne
    show (keysOf (updateKey _ _ _)).Nodup
    rw [keysOf_updateKey]
    exact hngE
  have huq : ∀ g ∈ updateKey record.rtype.rtype
      (fun ts => ts ++ [(record.rtype, record.rclass, now + record.ttl)])
      entry.records,
      g.2.Pairwise (fun a b => ¬(a.1 = b.1 ∧ a.2.1 = b.2.1)) := by
    rw [hupdG]
    intro g hg
    rcases mem_split_cases hg with rfl | h
    · rw [List.pairwise_append]
      refine ⟨hI.uniqG _ hmemSelf (record.rtype.rtype, tuples)
        (hrec ▸ mem_split_self), List.pairwise_singleton _ _, ?_⟩
      intro a ha b hb
      rcases List.mem_singleton.mp hb with rfl
      have := dupPred_false_iff.mp (findIdxElem_eq_none hF a ha)
      exact this
    · exact hI.uniqG _ hmemSelf g (hrec ▸ mem_of_mem_sides h)
  by_cases hlt : now + record.ttl < entry.next_expiry
  · simp only [if_pos hlt]
    exact inv_update_entry hI hE
      (by rw [hcnt]; show entry.size + 1 = tupleCount entry + 1; omega)
      (by rw [hcnt]; omega)
      (hexpmem _ _ (Or.inr rfl))
      rfl (hng _) huq
      (by show s.current_size + 1 + entry.size
            = s.current_size + (entry.size + 1); omega)
      (Or.inr rfl)
  · simp only [if_neg hlt]
    exact inv_update_entry hI hE
      (by rw [hcnt]; show entry.size + 1 = tupleCount entry + 1; omega)
      (by rw [hcnt]; omega)
      (hexpmem _ _ (Or.inl (hI.neMem _ hmemSelf)))
      rfl (hng _) huq
      (by show s.current_size + 1 + entry.size
            = s.current_size + (entry.size + 1); omega)
      (Or.inl ⟨rfl, rfl⟩)

theorem inv_insert_dup {s : BetterCache} {now : Instant}
    {record : ResourceRecord} {entry : CachedDomainRecords}
    {tuples : List CachedTuple} {i : Nat} {t : CachedTuple} (hI : Inv s)
    (hE : lookupKey record.name s.entries = some entry)
    (hG : lookupKey record.rtype.rtype entry.records = some tuples)
    (hF : findIdxElem (dupPred record) tuples = some (i, t)) :
    Inv (s.insert now record) := by
  have hmemSelf : (record.name, entry) ∈ s.entries := lookupKey_mem hE
  have hszE : entry.size = tupleCount entry := hI.sizeCount _ hmemSelf
  have hposE : 1 ≤ tupleCount entry := hI.sizePos _ hmemSelf
  have hngE : (keysOf entry.records).Nodup := hI.nodupG _ hmemSelf
  obtain ⟨G1, G2, hrec, hg1, hg2⟩ := lookup_nodup_split hG hngE
  obtain ⟨hpt, F1, F2, htup, hlen, hfirst⟩ := findIdxElem_split hF
  have hptc : t.1 = record.rtype ∧ t.2.1 = record.rclass :=
    dupPred_true_iff.mp hpt
  have hperm : (swapRemove tuples i).Perm (F1 ++ F2) := by
    rw [htup, ← hlen]
    exact swapRemove_perm_split
  have hswlen : (swapRemove tuples i).length + 1 = tuples.length := by
    rw [hperm.length_eq, htup]
    simp
    omega
  have huqT : tuples.Pairwise (fun a b => ¬(a.1 = b.1 ∧ a.2.1 = b.2.1)) :=
    hI.uniqG _ hmemSelf (record.rtype.rtype, tuples) (hrec ▸ mem_split_self)
  have hRsymm : ∀ ⦃a b : CachedTuple⦄, ¬(a.1 = b.1 ∧ a.2.1 = b.2.1) →
      ¬(b.1 = a.1 ∧ b.2.1 = a.2.1) := by
    intro a b hab hc
    exact hab ⟨hc.1.symm, hc.2.symm⟩
  -- abbreviations for the replaced group
  have hupdG : ∀ g' : List CachedTuple, updateKey record.rtype.rtype
      (fun _ => g') entry.records = G1 ++ (record.rtype.rtype, g') :: G2 := by
    intro g'
    rw [hrec, updateKey_append_left hg1, updateKey_cons_self]
  have hcross : ∀ a ∈ swapRemove tuples i,
      ¬(a.1 = (record.rtype, record.rclass, now + record.ttl).1 ∧
        a.2.1 = (record.rtype, record.rclass, now + record.ttl).2.1) := by
    intro a ha
    have haFF : a ∈ F1 ++ F2 := hperm.subset ha
    rcases List.mem_append.mp haFF with h | h
    · intro hc
      exact (dupPred_false_iff.mp (hfirst a h)) ⟨hc.1, hc.2⟩
    · intro hc
      have hpw : (t :: F2).Pairwise (fun a b : CachedTuple =>
          ¬(a.1 = b.1 ∧ a.2.1 = b.2.1)) :=
        ((List.pairwise_append.mp (htup ▸ huqT)).2.1)
      have hta := (List.pairwise_cons.mp hpw).1 a h
      exact hta ⟨hptc.1.trans hc.1.symm, hptc.2.trans hc.2.symm⟩
  have hpwg : (swapRemove tuples i ++
      [(record.rtype, record.rclass, now + record.ttl)]).Pairwise
      (fun a b => ¬(a.1 = b.1 ∧ a.2.1 = b.2.1)) := by
    rw [List.pairwise_append]
    refine ⟨?_, List.pairwise_singleton _ _, ?_⟩
    · have hsub : List.Sublist (F1 ++ F2) tuples := by
        rw [htup]
        exact List.Sublist.append_left ((List.Sublist.refl F2).cons t) F1
      exact ((List.Perm.pairwise_iff @hRsymm hperm).mpr (List.Pairwise.sublist hsub huqT))
    · intro a ha b hb
      rcases List.mem_singleton.mp hb with rfl
      exact hcross a ha
  have hcnt : ∀ ne : Instant, tupleCount
      ({ last_read := now, next_expiry := ne, size := entry.size - 1 + 1,
         records := updateKey record.rtype.rtype
           (fun _ => swapRemove tuples i ++
             [(record.rtype, record.rclass, now + record.ttl)])
           entry.records } : CachedDomainRecords) = tupleCount entry := by
    intro ne
    simp only [tupleCount]
    rw [hupdG, hrec]
    simp only [List.map_append, List.sum_append, List.map_cons, List.sum_cons,
      List.length_append, List.length_cons, List.length_nil]
    omega
  have hexpmem : ∀ ne : Instant, ∀ v : Instant,
      ((v ∈ expiriesOf entry ∧ v ≠ t.2.2) ∨
        (∃ u ∈ swapRemove tuples i ++
          [(record.rtype, record.rclass, now + record.ttl)], v = u.2.2)) →
      v ∈ expiriesOf
        ({ last_read := now, next_expiry := ne, size := entry.size - 1 + 1,
           records := updateKey record.rtype.rtype
             (fun _ => swapRemove tuples i ++
               [(record.rtype, record.rclass, now + record.ttl)])
             entry.records } : CachedDomainRecords) := by
    intro ne v hv
    have hrecE : ({ last_read := now, next_expiry := ne,
                    size := entry.size - 1 + 1,
                    records := updateKey record.rtype.rtype
                      (fun _ => swapRemove tuples i ++
                        [(record.rtype, record.rclass, now + record.ttl)])
                      entry.records } : CachedDomainRecords).records
        = G1 ++ (record.rtype.rtype, swapRemove tuples i ++
            [(record.rtype, record.rclass, now + record.ttl)]) :: G2 :=
      hupdG _
    rw [expiriesOf_split hrecE]
    rcases hv with ⟨hv, hvne⟩ | ⟨u, hu, rfl⟩
    · rw [expiriesOf_split hrec] at hv
      rcases List.mem_append.mp hv with h | h
      · exact List.mem_append.mpr (Or.inl h)
      · rcases List.mem_append.mp h with h | h
        · -- v is the expiry of a tuple of the affected group, not the dup
          obtain ⟨u, hu, rfl⟩ := List.mem_map.mp h
          have hunt : u ≠ t := fun hc => hvne (by rw [hc])
          have huFF : u ∈ F1 ++ F2 := by
            rcases mem_split_cases (htup ▸ hu) with h' | h'
            · exact absurd h' hunt
            · exact h'
          have husw : u ∈ swapRemove tuples i := hperm.mem_iff.mpr huFF
          refine List.mem_append.mpr (Or.inr (List.mem_append.mpr (Or.inl ?_)))
          exact List.mem_map.mpr ⟨u, List.mem_append.mpr (Or.inl husw), rfl⟩
        · exact List.mem_append.mpr (Or.inr (List.mem_append.mpr (Or.inr h)))
    · refine List.mem_append.mpr (Or.inr (List.mem_append.mpr (Or.inl ?_)))
      exact List.mem_map.mpr ⟨u, hu, rfl⟩
  have hng : (keysOf (updateKey record.rtype.rtype
      (fun _ => swapRemove tuples i ++
        [(record.rtype, record.rclass, now + record.ttl)])
      entry.records)).Nodup := by
    rw [keysOf_updateKey]
    exact hngE
  have huq : ∀ g ∈ updateKey record.rtype.rtype
      (fun _ => swapRemove tuples i ++
        [(record.rtype, record.rclass, now + record.ttl)])
      entry.records,
      g.2.Pairwise (fun a b => ¬(a.1 = b.1 ∧ a.2.1 = b.2.1)) := by
    rw [hupdG]
    intro g hg
    rcases mem_split_cases hg with rfl | h
    · exact hpwg
    · exact hI.uniqG _ hmemSelf g (hrec ▸ mem_of_mem_sides h)
  have hcurr : 1 ≤ s.current_size := by
    have h1 := entry_size_le_current hI hmemSelf
    omega
  have hdelta : ∀ ne : Instant, s.current_size - 1 + 1 +
      entry.size = s.current_size +
      ({ last_read := now, next_expiry := ne, size := entry.size - 1 + 1,
         records := updateKey record.rtype.rtype
           (fun _ => swapRemove tuples i ++
             [(record.rtype, record.rclass, now + record.ttl)])
           entry.records } : CachedDomainRecords).size := by
    intro ne
    show s.current_size - 1 + 1 + entry.size
      = s.current_size + (entry.size - 1 + 1)
    omega
  have hsz : ∀ ne : Instant,
      ({ last_read := now, next_expiry := ne, size := entry.size - 1 + 1,
         records := updateKey record.rtype.rtype
           (fun _ => swapRemove tuples i ++
             [(record.rtype, record.rclass, now + record.ttl)])
           entry.records } : CachedDomainRecords).size = tupleCount
      ({ last_read := now, next_expiry := ne, size := entry.size - 1 + 1,
         records := updateKey record.rtype.rtype
           (fun _ => swapRemove tuples i ++
             [(record.rtype, record.rclass, now + record.ttl)])
           entry.records } : CachedDomainRecords) := by
    intro ne
    rw [hcnt]
    show entry.size - 1 + 1 = tupleCount entry
    omega
  by_cases hD : t.2.2 = entry.next_expiry
  · rw [insert_of_dup_eq hE hG hF hD]
    refine inv_update_entry hI hE (hsz _) (by rw [hcnt]; omega) ?_ rfl hng huq
      (hdelta _) (Or.inr rfl)
    -- next_expiry is the fold minimum: either the incoming expiry or the
    -- expiry of a group tuple, in both cases the expiry of a stored tuple
    rcases foldMin_eq_init_or_mem (swapRemove tuples i ++
        [(record.rtype, record.rclass, now + record.ttl)])
        (now + record.ttl) with h | ⟨u, hu, h⟩
    · refine hexpmem _ _ (Or.inr ⟨(record.rtype, record.rclass, now + record.ttl),
        List.mem_append.mpr (Or.inr (List.mem_singleton.mpr rfl)), ?_⟩)
      simpa [foldMin] using h
    · refine hexpmem _ _ (Or.inr ⟨u, hu, ?_⟩)
      simpa [foldMin] using h
  · rw [insert_of_dup_ne hE hG hF hD]
    by_cases hlt : now + record.ttl < entry.next_expiry
    · simp only [if_pos hlt]
      exact inv_update_entry hI hE (hsz _) (by rw [hcnt]; omega)
        (hexpmem _ _ (Or.inr ⟨(record.rtype, record.rclass, now + record.ttl),
          List.mem_append.mpr (Or.inr (List.mem_singleton.mpr rfl)), rfl⟩))
        rfl hng huq (hdelta _) (Or.inr rfl)
    · simp only [if_neg hlt]
      exact inv_update_entry hI hE (hsz _) (by rw [hcnt]; omega)
        (hexpmem _ _ (Or.inl ⟨hI.neMem _ hmemSelf, fun hc => hD hc.symm⟩))
        rfl hng huq (hdelta _) (Or.inl ⟨rfl, rfl⟩)

/-- `insert` preserves the structural invariant. -/
theorem inv_insert (s : BetterCache) (now : Instant)
    (record : ResourceRecord) (hI : Inv s) : Inv (s.insert now record) := by
  cases hE : lookupKey record.name s.entries with
  | none => exact inv_insert_fresh hI hE
  | some entry =>
    cases hG : lookupKey record.rtype.rtype entry.records with
    | none => exact inv_insert_new_group hI hE hG
    | some tuples =>
      cases hF : findIdxElem (dupPred record) tuples with
      | none => exact inv_insert_no_dup hI hE hG hF
      | some it =>
        obtain ⟨i, t⟩ := it
        exact inv_insert_dup hI hE hG hF

end InsertInv

/-! ## `foldOptMin` and further list lemmas -/

section PruneLemmas

theorem foldOptMin_from_some (l : List CachedTuple) (a : Instant) :
    l.foldl
      (fun acc t =>
        match acc with
        | none => some t.2.2
        | some m => if t.2.2 < m then some t.2.2 else some m)
      (some a) = some (foldMin l a) := by
  induction l generalizing a with
  | nil => rfl
  | cons u rest ih =>
    show List.foldl _ (if u.2.2 < a then some u.2.2 else some a) rest = _
    by_cases h : u.2.2 < a
    · rw [if_pos h, ih]
      simp [foldMin, List.foldl_cons, if_pos h]
    · rw [if_neg h, ih]
      simp [foldMin, List.foldl_cons, if_neg h]

theorem foldOptMin_nil : foldOptMin [] = none := rfl

theorem foldOptMin_cons (t : CachedTuple) (l : List CachedTuple) :
    foldOptMin (t :: l) = some (foldMin l t.2.2) := by
  show List.foldl _ (some t.2.2) l = _
  exact foldOptMin_from_some l t.2.2

theorem foldOptMin_eq_none_iff {l : List CachedTuple} :
    foldOptMin l = none ↔ l = [] := by
  cases l with
  | nil => simp [foldOptMin_nil]
  | cons t rest => simp [foldOptMin_cons]

theorem foldOptMin_mem {l : List CachedTuple} {m : Instant}
    (h : foldOptMin l = some m) : ∃ u ∈ l, m = u.2.2 := by
  cases l with
  | nil => simp [foldOptMin_nil] at h
  | cons t rest =>
    rw [foldOptMin_cons] at h
    rcases Option.some.inj h with rfl
    rcases foldMin_eq_init_or_mem rest t.2.2 with h1 | ⟨u, hu, h1⟩
    · exact ⟨t, List.mem_cons_self t rest, h1⟩
    · exact ⟨u, List.mem_cons_of_mem t hu, h1⟩

theorem foldOptMin_le {l : List CachedTuple} {m : Instant}
    (h : foldOptMin l = some m) : ∀ u ∈ l, m ≤ u.2.2 := by
  cases l with
  | nil => simp
  | cons t rest =>
    rw [foldOptMin_cons] at h
    rcases Option.some.inj h with rfl
    intro u hu
    rcases List.mem_cons.mp hu with rfl | hu
    · exact foldMin_le_init rest u.2.2
    · exact foldMin_le_mem rest t.2.2 u hu

theorem lookupKey_sides_ne {α : Type u} {β : Type v} [DecidableEq α]
    {l1 l2 : List (α × β)} {x : α × β} {n : α} (hne : n ≠ x.1) :
    lookupKey n (l1 ++ x :: l2) = lookupKey n (l1 ++ l2) := by
  induction l1 with
  | nil =>
    obtain ⟨a, b⟩ := x
    show (if a = n then some b else lookupKey n l2) = lookupKey n l2
    rw [if_neg (fun h : a = n => hne h.symm)]
  | cons y rest ih =>
    obtain ⟨a, b⟩ := y
    by_cases han : a = n <;> simp [lookupKey, han, ih]

theorem mem_keysOf_sides {α : Type u} {β : Type v} {l1 l2 : List (α × β)}
    (x : α × β) (hn1 : x.1 ∉ keysOf l1) (hn2 : x.1 ∉ keysOf l2) :
    ∀ n, n ∈ keysOf (l1 ++ l2) ↔ n ∈ keysOf (l1 ++ x :: l2) ∧ n ≠ x.1 := by
  intro n
  simp only [keysOf_append, keysOf_cons, List.mem_append, List.mem_cons]
  constructor
  · rintro (h | h)
    · exact ⟨Or.inl h, fun hc => hn1 (hc ▸ h)⟩
    · exact ⟨Or.inr (Or.inr h), fun hc => hn2 (hc ▸ h)⟩
  · rintro ⟨h | (h | h), hne⟩
    · exact Or.inl h
    · exact absurd h hne
    · exact Or.inr h

/-- Key list of the queue remainder after a pop is duplicate-free. -/
theorem nodup_sides {α : Type u} {β : Type v} {l1 l2 : List (α × β)}
    {x : α × β} (h : (keysOf (l1 ++ x :: l2)).Nodup) :
    (keysOf (l1 ++ l2)).Nodup := by
  simp only [keysOf_append, keysOf_cons] at h ⊢
  exact List.Nodup.sublist
    (List.Sublist.append_left ((List.Sublist.refl _).cons x.1) _) h

end PruneLemmas

/-! ## Characterisation of the pruning steps -/

section PruneStepLemmas

variable {s : BetterCache} {now : Instant}

theorem removeLRU_of_none (h : pqPop s.access_priority = none) :
    s.removeLeastRecentlyUsed = (0, s) := by
  simp [BetterCache.removeLeastRecentlyUsed, h]

theorem removeLRU_of_some {x : DomainName × Instant}
    {acc : List (DomainName × Instant)} {entry : CachedDomainRecords}
    (hpop : pqPop s.access_priority = some (x, acc))
    (hent : lookupKey x.1 s.entries = some entry) :
    s.removeLeastRecentlyUsed = (entry.size,
      { s with
        entries := removeKey x.1 s.entries
        access_priority := acc
        expiry_priority := pqRemove x.1 s.expiry_priority
        current_size := s.current_size - entry.size }) := by
  simp [BetterCache.removeLeastRecentlyUsed, hpop, hent]

theorem removeLRU_of_some_absent {x : DomainName × Instant}
    {acc : List (DomainName × Instant)}
    (hpop : pqPop s.access_priority = some (x, acc))
    (hent : lookupKey x.1 s.entries = none) :
    s.removeLeastRecentlyUsed = (0,
      { s with
        access_priority := acc
        expiry_priority := pqRemove x.1 s.expiry_priority }) := by
  simp [BetterCache.removeLeastRecentlyUsed, hpop, hent]

/-- `remove_least_recently_used` preserves the structural invariant. -/
theorem inv_removeLRU (s : BetterCache) (hI : Inv s) :
    Inv (s.removeLeastRecentlyUsed).2 := by
  cases hpop : pqPop s.access_priority with
  | none => rw [removeLRU_of_none hpop]; exact hI
  | some xr =>
    obtain ⟨x, acc⟩ := xr
    obtain ⟨A1, A2, hA, hAcc, hmin⟩ := pqPop_split hpop
    have hxA : x.1 ∈ keysOf s.access_priority := by
      rw [hA]
      exact mem_key_of_mem mem_split_self
    have hxE : x.1 ∈ keysOf s.entries := hI.keysAE _ hxA
    cases hent : lookupKey x.1 s.entries with
    | none => exact absurd hxE (lookupKey_eq_none.mp hent)
    | some entry =>
      rw [removeLRU_of_some hpop hent]
      obtain ⟨E1, E2, hE, he1, he2⟩ := lookup_nodup_split hent hI.nodupE
      have hxX : x.1 ∈ keysOf s.expiry_priority := hI.keysEX _ hxE
      obtain ⟨xv, hxv⟩ : ∃ v, lookupKey x.1 s.expiry_priority = some v := by
        cases hl : lookupKey x.1 s.expiry_priority with
        | none => exact absurd hxX (lookupKey_eq_none.mp hl)
        | some v => exact ⟨v, rfl⟩
      obtain ⟨X1, X2, hX, hx1, hx2⟩ := lookup_nodup_split hxv hI.nodupX
      obtain ⟨ha1, ha2⟩ := nodup_split_not_mem (hA ▸ hI.nodupA)
      have hremE : removeKey x.1 s.entries = E1 ++ E2 := by
        rw [hE, removeKey_append_left he1, removeKey_cons_self]
      have hremX : pqRemove x.1 s.expiry_priority = X1 ++ X2 := by
        rw [pqRemove, hX, removeKey_append_left hx1, removeKey_cons_self]
      have hmemE : ∀ kv ∈ E1 ++ E2, kv ∈ s.entries ∧
          (kv : DomainName × CachedDomainRecords).1 ≠ x.1 := by
        intro kv hkv
        exact ⟨hE ▸ mem_of_mem_sides hkv, key_ne_of_mem_append hkv he1 he2⟩
      have hkeyE := mem_keysOf_sides (x.1, entry) he1 he2
      have hkeyA := mem_keysOf_sides x ha1 ha2
      have hkeyX := mem_keysOf_sides (x.1, xv) hx1 hx2
      rw [hremE, hremX, hAcc]
      refine ⟨?_, ?_, ?_, ?_, ?_, ?_, ?_, ?_, ?_, ?_, ?_, ?_, ?_, ?_, ?_⟩
      · exact nodup_sides (hE ▸ hI.nodupE)
      · exact nodup_sides (hA ▸ hI.nodupA)
      · exact nodup_sides (hX ▸ hI.nodupX)
      · intro n hn
        rcases (hkeyA n).mp hn with ⟨hn1, hn2⟩
        exact (hkeyE n).mpr ⟨hE ▸ hI.keysAE n (hA ▸ hn1), hn2⟩
      · intro n hn
        rcases (hkeyE n).mp hn with ⟨hn1, hn2⟩
        exact (hkeyA n).mpr ⟨hA ▸ hI.keysEA n (hE ▸ hn1), hn2⟩
      · intro n hn
        rcases (hkeyX n).mp hn with ⟨hn1, hn2⟩
        exact (hkeyE n).mpr ⟨hE ▸ hI.keysXE n (hX ▸ hn1), hn2⟩
      · intro n hn
        rcases (hkeyE n).mp hn with ⟨hn1, hn2⟩
        exact (hkeyX n).mpr ⟨hX ▸ hI.keysEX n (hE ▸ hn1), hn2⟩
      · show s.current_size - entry.size = _
        have h0 := hI.sizeSum
        rw [hE] at h0
        simp only [List.map_append, List.sum_append, List.map_cons,
          List.sum_cons] at h0 ⊢
        omega
      · intro kv hkv
        exact hI.sizeCount kv (hmemE kv hkv).1
      · intro kv hkv
        exact hI.sizePos kv (hmemE kv hkv).1
      · intro kv hkv
        exact hI.neMem kv (hmemE kv hkv).1
      · intro kv hkv
        rw [show X1 ++ X2 = pqRemove x.1 s.expiry_priority from hremX.symm,
          pqRemove, lookupKey_removeKey_ne (hmemE kv hkv).2]
        exact hI.syncX kv (hmemE kv hkv).1
      · intro kv hkv
        have hne := (hmemE kv hkv).2
        rw [show (A1 ++ A2 : List (DomainName × Instant))
            = A1 ++ A2 from rfl]
        have : lookupKey kv.1 (A1 ++ A2)
            = lookupKey kv.1 s.access_priority := by
          rw [hA]
          exact (lookupKey_sides_ne hne).symm
        rw [this]
        exact hI.syncA kv (hmemE kv hkv).1
      · intro kv hkv
        exact hI.nodupG kv (hmemE kv hkv).1
      · intro kv hkv
        exact hI.uniqG kv (hmemE kv hkv).1

theorem expStep_of_none (h : pqPop s.expiry_priority = none) :
    s.removeExpiredStep now = (0, s) := by
  simp [BetterCache.removeExpiredStep, h]

theorem expStep_of_future {x : DomainName × Instant}
    {rest : List (DomainName × Instant)}
    (hpop : pqPop s.expiry_priority = some (x, rest)) (hf : now < x.2) :
    s.removeExpiredStep now = (0,
      { s with expiry_priority := pqPush x.1 x.2 rest }) := by
  simp [BetterCache.removeExpiredStep, hpop, hf]

theorem expStep_of_due_some {x : DomainName × Instant}
    {rest : List (DomainName × Instant)} {entry : CachedDomainRecords}
    {ne : Instant}
    (hpop : pqPop s.expiry_priority = some (x, rest)) (hf : ¬ now < x.2)
    (hent : lookupKey x.1 s.entries = some entry)
    (hmin : foldOptMin (((filterLive now entry.records).map
      (fun g => g.2)).flatten) = some ne) :
    s.removeExpiredStep now =
      (tupleCount entry -
        ((filterLive now entry.records).map (fun g => g.2.length)).sum,
        { s with
          entries := updateKey x.1 (fun e =>
            { e with
              records := filterLive now entry.records
              size := e.size - (tupleCount entry -
                ((filterLive now entry.records).map
                  (fun g => g.2.length)).sum)
              next_expiry := ne }) s.entries
          expiry_priority := pqPush x.1 ne rest
          current_size := s.current_size - (tupleCount entry -
            ((filterLive now entry.records).map
              (fun g => g.2.length)).sum) }) := by
  simp [BetterCache.removeExpiredStep, hpop, hf, hent, hmin]

theorem expStep_of_due_none {x : DomainName × Instant}
    {rest : List (DomainName × Instant)} {entry : CachedDomainRecords}
    (hpop : pqPop s.expiry_priority = some (x, rest)) (hf : ¬ now < x.2)
    (hent : lookupKey x.1 s.entries = some entry)
    (hmin : foldOptMin (((filterLive now entry.records).map
      (fun g => g.2)).flatten) = none) :
    s.removeExpiredStep now =
      (tupleCount entry -
        ((filterLive now entry.records).map (fun g => g.2.length)).sum,
        { s with
          entries := removeKey x.1 s.entries
          access_priority := pqRemove x.1 s.access_priority
          expiry_priority := rest
          current_size := s.current_size - (tupleCount entry -
            ((filterLive now entry.records).map
              (fun g => g.2.length)).sum) }) := by
  simp [BetterCache.removeExpiredStep, hpop, hf, hent, hmin]

theorem expStep_of_due_absent {x : DomainName × Instant}
    {rest : List (DomainName × Instant)}
    (hpop : pqPop s.expiry_priority = some (x, rest)) (hf : ¬ now < x.2)
    (hent : lookupKey x.1 s.entries = none) :
    s.removeExpiredStep now = (0,
      { s with
        expiry_priority := rest
        access_priority := pqRemove x.1 s.access_priority }) := by
  simp [BetterCache.removeExpiredStep, hpop, hf, hent]

theorem keysOf_filterLive {now : Instant}
    {records : List (RecordType × List CachedTuple)} :
    keysOf (filterLive now records) = keysOf records := by
  simp [filterLive, keysOf, List.map_map]

theorem filtered_sum_le {now : Instant} {e : CachedDomainRecords} :
    ((filterLive now e.records).map (fun g => g.2.length)).sum ≤ tupleCount e := by
  rw [tupleCount, filterLive, List.map_map]
  exact List.sum_le_sum (fun g _ => by
    simpa using List.length_filter_le _ g.2)

/-- `remove_expired_step` preserves the structural invariant. -/
theorem inv_expStep (s : BetterCache) (now : Instant) (hI : Inv s) :
    Inv (s.removeExpiredStep now).2 := by
  cases hpop : pqPop s.expiry_priority with
  | none => rw [expStep_of_none hpop]; exact hI
  | some xr =>
    obtain ⟨x, rest⟩ := xr
    obtain ⟨X1, X2, hX, hrest, hminX⟩ := pqPop_split hpop
    obtain ⟨hx1, hx2⟩ := nodup_split_not_mem (hX ▸ hI.nodupX)
    have hxX : x.1 ∈ keysOf s.expiry_priority := by
      rw [hX]
      exact mem_key_of_mem mem_split_self
    have hxE : x.1 ∈ keysOf s.entries := hI.keysXE _ hxX
    have hnrest : x.1 ∉ keysOf rest := by
      rw [hrest]
      simp only [keysOf_append, List.mem_append]
      rintro (h | h)
      · exact hx1 h
      · exact hx2 h
    have hnodrest : (keysOf rest).Nodup := by
      rw [hrest]
      exact nodup_sides (hX ▸ hI.nodupX)
    have hpush : ∀ p : Instant, pqPush x.1 p rest = rest ++ [(x.1, p)] :=
      fun p => keysOf_pqPush_of_not_mem hnrest
    have hkeyrest : ∀ n, n ∈ keysOf rest ↔
        n ∈ keysOf s.expiry_priority ∧ n ≠ x.1 := by
      intro n
      rw [hrest, hX]
      exact mem_keysOf_sides x hx1 hx2 n
    have hkeypush : ∀ p : Instant, ∀ n, n ∈ keysOf (rest ++ [(x.1, p)]) ↔
        n ∈ keysOf s.expiry_priority := by
      intro p n
      simp only [keysOf_append, keysOf_cons, keysOf_nil, List.mem_append,
        List.mem_singleton, List.mem_cons, List.not_mem_nil, or_false]
      constructor
      · rintro (h | h)
        · exact ((hkeyrest n).mp h).1
        · exact h ▸ hxX
      · intro h
        by_cases hn : n = x.1
        · exact Or.inr hn
        · exact Or.inl ((hkeyrest n).mpr ⟨h, hn⟩)
    have hlookrest : ∀ n, n ≠ x.1 →
        lookupKey n rest = lookupKey n s.expiry_priority := by
      intro n hn
      rw [hrest, hX]
      exact (lookupKey_sides_ne hn).symm
    have hlookpush : ∀ p : Instant, ∀ n, n ≠ x.1 →
        lookupKey n (rest ++ [(x.1, p)]) = lookupKey n s.expiry_priority := by
      intro p n hn
      cases hl : lookupKey n rest with
      | some v =>
        rw [lookupKey_append_of_some hl, ← hl, hlookrest n hn]
      | none =>
        rw [lookupKey_append_left (lookupKey_eq_none.mp hl)]
        have h2 : lookupKey n s.expiry_priority = none := by
          rw [← hlookrest n hn]
          exact hl
        rw [h2]
        show (if x.1 = n then some p else lookupKey n []) = none
        rw [if_neg (fun hc => hn hc.symm)]
        rfl
    have hlookpushx : ∀ p : Instant,
        lookupKey x.1 (rest ++ [(x.1, p)]) = some p := by
      intro p
      rw [lookupKey_append_left hnrest]
      simp
    have hlookx : lookupKey x.1 s.expiry_priority = some x.2 := by
      rw [hX]
      exact lookupKey_eq_some_of_split hx1
    by_cases hf : now < x.2
    · rw [expStep_of_future hpop hf, hpush]
      refine ⟨hI.nodupE, hI.nodupA, ?_, hI.keysAE, hI.keysEA, ?_, ?_,
        hI.sizeSum, hI.sizeCount, hI.sizePos, hI.neMem, ?_, hI.syncA,
        hI.nodupG, hI.uniqG⟩
      · simp only [keysOf_append, keysOf_cons, keysOf_nil]
        exact nodup_append_singleton hnrest hnodrest
      · intro n hn
        exact hI.keysXE n ((hkeypush x.2 n).mp hn)
      · intro n hn
        exact (hkeypush x.2 n).mpr (hI.keysEX n hn)
      · intro kv hkv
        by_cases hn : kv.1 = x.1
        · rw [hn, hlookpushx]
          have h1 := hI.syncX kv hkv
          rw [hn, hlookx] at h1
          exact congrArg some (Option.some.inj h1)
        · rw [hlookpush x.2 kv.1 hn]
          exact hI.syncX kv hkv
    · cases hent : lookupKey x.1 s.entries with
      | none => exact absurd hxE (lookupKey_eq_none.mp hent)
      | some entry =>
        obtain ⟨E1, E2, hE, he1, he2⟩ := lookup_nodup_split hent hI.nodupE
        have hmemSelf : (x.1, entry) ∈ s.entries := hE ▸ mem_split_self
        have hszE : entry.size = tupleCount entry := hI.sizeCount _ hmemSelf
        have hfsle := @filtered_sum_le now entry
        have hsurvlen : (((filterLive now entry.records).map
            (fun g => g.2)).flatten).length
            = ((filterLive now entry.records).map (fun g => g.2.length)).sum := by
          rw [List.length_flatten, List.map_map]
          rfl
        cases hmin : foldOptMin (((filterLive now entry.records).map
            (fun g => g.2)).flatten) with
        | some ne =>
          rw [expStep_of_due_some hpop hf hent hmin, hpush]
          have hupd : updateKey x.1 (fun e =>
              { e with
                records := filterLive now entry.records
                size := e.size - (tupleCount entry -
                  ((filterLive now entry.records).map
                    (fun g => g.2.length)).sum)
                next_expiry := ne }) s.entries
              = E1 ++ (x.1,
                { entry with
                  records := filterLive now entry.records
                  size := entry.size - (tupleCount entry -
                    ((filterLive now entry.records).map
                      (fun g => g.2.length)).sum)
                  next_expiry := ne }) :: E2 := by
            rw [hE, updateKey_append_left he1, updateKey_cons_self]
          rw [hupd]
          have hmemE : ∀ kv ∈ E1 ++ (x.1,
              { entry with
                records := filterLive now entry.records
                size := entry.size - (tupleCount entry -
                  ((filterLive now entry.records).map
                    (fun g => g.2.length)).sum)
                next_expiry := ne }) :: E2,
              kv = (x.1,
                { entry with
                  records := filterLive now entry.records
                  size := entry.size - (tupleCount entry -
                    ((filterLive now entry.records).map
                      (fun g => g.2.length)).sum)
                  next_expiry := ne }) ∨
                (kv ∈ s.entries ∧ kv.1 ≠ x.1) := by
            intro kv hkv
            rcases mem_split_cases hkv with h | h
            · exact Or.inl h
            · exact Or.inr ⟨hE ▸ mem_of_mem_sides h,
                key_ne_of_mem_append h he1 he2⟩
          have hcount : tupleCount
              { entry with
                records := filterLive now entry.records
                size := entry.size - (tupleCount entry -
                  ((filterLive now entry.records).map
                    (fun g => g.2.length)).sum)
                next_expiry := ne }
              = ((filterLive now entry.records).map
                  (fun g => g.2.length)).sum := rfl
          have hsurvne : (((filterLive now entry.records).map
              (fun g => g.2)).flatten) ≠ [] := by
            intro hc
            rw [foldOptMin_eq_none_iff.mpr hc] at hmin
            exact Option.noConfusion hmin
          have hsurvpos : 1 ≤ ((filterLive now entry.records).map
              (fun g => g.2.length)).sum := by
            rw [← hsurvlen]
            exact List.length_pos.mpr hsurvne
          have hkeysE2 : ∀ n, n ∈ keysOf (E1 ++ (x.1,
              { entry with
                records := filterLive now entry.records
                size := entry.size - (tupleCount entry -
                  ((filterLive now entry.records).map
                    (fun g => g.2.length)).sum)
                next_expiry := ne }) :: E2) ↔ n ∈ keysOf s.entries := by
            intro n
            rw [← hupd]
            simp only [keysOf_updateKey]
          refine ⟨?_, hI.nodupA, ?_, ?_, ?_, ?_, ?_, ?_, ?_, ?_, ?_,
            ?_, ?_, ?_, ?_⟩
          · rw [← hupd]
            simpa [keysOf_updateKey] using hI.nodupE
          · simp only [keysOf_append, keysOf_cons, keysOf_nil]
            exact nodup_append_singleton hnrest hnodrest
          · intro n hn
            exact (hkeysE2 n).mpr (hI.keysAE n hn)
          · intro n hn
            exact hI.keysEA n ((hkeysE2 n).mp hn)
          · intro n hn
            exact (hkeysE2 n).mpr (hI.keysXE n ((hkeypush ne n).mp hn))
          · intro n hn
            exact (hkeypush ne n).mpr (hI.keysEX n ((hkeysE2 n).mp hn))
          · show s.current_size - _ = _
            have h0 := hI.sizeSum
            rw [hE] at h0
            simp only [List.map_append, List.sum_append, List.map_cons,
              List.sum_cons] at h0 ⊢
            omega
          · intro kv hkv
            rcases hmemE kv hkv with rfl | ⟨hmem, _⟩
            · rw [hcount]
              show entry.size - _ = _
              omega
            · exact hI.sizeCount kv hmem
          · intro kv hkv
            rcases hmemE kv hkv with rfl | ⟨hmem, _⟩
            · rw [hcount]
              exact hsurvpos
            · exact hI.sizePos kv hmem
          · intro kv hkv
            rcases hmemE kv hkv with rfl | ⟨hmem, _⟩
            · obtain ⟨u, hu, hue⟩ := foldOptMin_mem hmin
              show ne ∈ expiriesOf _
              rw [expiriesOf]
              exact List.mem_map.mpr ⟨u, hu, hue.symm⟩
            · exact hI.neMem kv hmem
          · intro kv hkv
            rcases hmemE kv hkv with rfl | ⟨hmem, hne⟩
            · exact hlookpushx ne
            · rw [hlookpush ne kv.1 hne]
              exact hI.syncX kv hmem
          · intro kv hkv
            rcases hmemE kv hkv with rfl | ⟨hmem, _⟩
            · exact hI.syncA (x.1, entry) hmemSelf
            · exact hI.syncA kv hmem
          · intro kv hkv
            rcases hmemE kv hkv with rfl | ⟨hmem, _⟩
            · show (keysOf (filterLive now entry.records)).Nodup
              rw [keysOf_filterLive]
              exact hI.nodupG _ hmemSelf
            · exact hI.nodupG kv hmem
          · intro kv hkv
            rcases hmemE kv hkv with rfl | ⟨hmem, _⟩
            · intro g hg
              obtain ⟨g0, hg0, rfl⟩ := List.mem_map.mp hg
              exact List.Pairwise.sublist (List.filter_sublist g0.2)
                (hI.uniqG _ hmemSelf g0 hg0)
            · exact hI.uniqG kv hmem
        | none =>
          rw [expStep_of_due_none hpop hf hent hmin]
          have hfs0 : ((filterLive now entry.records).map
              (fun g => g.2.length)).sum = 0 := by
            rw [← hsurvlen]
            rw [foldOptMin_eq_none_iff.mp hmin]
            rfl
          obtain ⟨lv, hlv⟩ : ∃ v, lookupKey x.1 s.access_priority = some v :=
            ⟨entry.last_read, hI.syncA (x.1, entry) hmemSelf⟩
          obtain ⟨A1, A2, hA, ha1, ha2⟩ := lookup_nodup_split hlv hI.nodupA
          have hremE : removeKey x.1 s.entries = E1 ++ E2 := by
            rw [hE, removeKey_append_left he1, removeKey_cons_self]
          have hremA : pqRemove x.1 s.access_priority = A1 ++ A2 := by
            rw [pqRemove, hA, removeKey_append_left ha1, removeKey_cons_self]
          have hmemE : ∀ kv ∈ E1 ++ E2, kv ∈ s.entries ∧
              (kv : DomainName × CachedDomainRecords).1 ≠ x.1 := by
            intro kv hkv
            exact ⟨hE ▸ mem_of_mem_sides hkv, key_ne_of_mem_append hkv he1 he2⟩
          have hkeyE := mem_keysOf_sides (x.1, entry) he1 he2
          have hkeyA := mem_keysOf_sides (x.1, lv) ha1 ha2
          rw [hremE, hremA, hrest]
          have hkeyX2 : ∀ n, n ∈ keysOf (X1 ++ X2) ↔
              n ∈ keysOf s.expiry_priority ∧ n ≠ x.1 := by
            intro n
            rw [hX]
            exact mem_keysOf_sides x hx1 hx2 n
          refine ⟨?_, ?_, ?_, ?_, ?_, ?_, ?_, ?_, ?_, ?_, ?_, ?_, ?_, ?_, ?_⟩
          · exact nodup_sides (hE ▸ hI.nodupE)
          · exact nodup_sides (hA ▸ hI.nodupA)
          · exact nodup_sides (hX ▸ hI.nodupX)
          · intro n hn
            rcases (hkeyA n).mp hn with ⟨hn1, hn2⟩
            exact (hkeyE n).mpr ⟨hE ▸ hI.keysAE n (hA ▸ hn1), hn2⟩
          · intro n hn
            rcases (hkeyE n).mp hn with ⟨hn1, hn2⟩
            exact (hkeyA n).mpr ⟨hA ▸ hI.keysEA n (hE ▸ hn1), hn2⟩
          · intro n hn
            rcases (hkeyX2 n).mp hn with ⟨hn1, hn2⟩
            exact (hkeyE n).mpr ⟨hE ▸ hI.keysXE n hn1, hn2⟩
          · intro n hn
            rcases (hkeyE n).mp hn with ⟨hn1, hn2⟩
            exact (hkeyX2 n).mpr ⟨hI.keysEX n (hE ▸ hn1), hn2⟩
          · show s.current_size - (tupleCount entry - _) = _
            have h0 := hI.sizeSum
            rw [hE] at h0
            simp only [List.map_append, List.sum_append, List.map_cons,
              List.sum_cons] at h0 ⊢
            omega
          · intro kv hkv
            exact hI.sizeCount kv (hmemE kv hkv).1
          · intro kv hkv
            exact hI.sizePos kv (hmemE kv hkv).1
          · intro kv hkv
            exact hI.neMem kv (hmemE kv hkv).1
          · intro kv hkv
            have h1 : lookupKey kv.1 (X1 ++ X2)
                = lookupKey kv.1 s.expiry_priority := by
              rw [hX]
              exact (lookupKey_sides_ne (hmemE kv hkv).2).symm
            rw [h1]
            exact hI.syncX kv (hmemE kv hkv).1
          · intro kv hkv
            have hne2 : kv.1 ≠ ((x.1, lv) : DomainName × Instant).1 :=
              (hmemE kv hkv).2
            have h1 : lookupKey kv.1 (A1 ++ A2)
                = lookupKey kv.1 s.access_priority := by
              rw [hA]
              exact (lookupKey_sides_ne hne2).symm
            rw [h1]
            exact hI.syncA kv (hmemE kv hkv).1
          · intro kv hkv
            exact hI.nodupG kv (hmemE kv hkv).1
          · intro kv hkv
            exact hI.uniqG kv (hmemE kv hkv).1

theorem removeExpiredLoop_succ (now : Instant) (fuel acc : Nat)
    (s : BetterCache) :
    removeExpiredLoop now (fuel + 1) acc s =
      if (s.removeExpiredStep now).1 = 0 then (acc, (s.removeExpiredStep now).2)
      else removeExpiredLoop now fuel (acc + (s.removeExpiredStep now).1)
        (s.removeExpiredStep now).2 := rfl

theorem lruLoop_succ (fuel acc : Nat) (s : BetterCache) :
    lruLoop (fuel + 1) acc s =
      if s.desired_size < s.current_size then
        lruLoop fuel (acc + (s.removeLeastRecentlyUsed).1)
          (s.removeLeastRecentlyUsed).2
      else (acc, s) := rfl

/-- The expiry loop preserves the structural invariant. -/
theorem inv_expLoop (now : Instant) :
    ∀ (fuel acc : Nat) (s : BetterCache), Inv s →
      Inv (removeExpiredLoop now fuel acc s).2 := by
  intro fuel
  induction fuel with
  | zero => intro acc s hI; exact hI
  | succ fuel ih =>
    intro acc s hI
    rw [removeExpiredLoop_succ]
    by_cases h : (s.removeExpiredStep now).1 = 0
    · rw [if_pos h]
      exact inv_expStep s now hI
    · rw [if_neg h]
      exact ih _ _ (inv_expStep s now hI)

/-- `remove_expired` preserves the structural invariant. -/
theorem inv_removeExpired (s : BetterCache) (now : Instant) (hI : Inv s) :
    Inv (s.removeExpired now).2 :=
  inv_expLoop now _ 0 s hI

/-- The LRU loop preserves the structural invariant. -/
theorem inv_lruLoop :
    ∀ (fuel acc : Nat) (s : BetterCache), Inv s →
      Inv (lruLoop fuel acc s).2 := by
  intro fuel
  induction fuel with
  | zero => intro acc s hI; exact hI
  | succ fuel ih =>
    intro acc s hI
    rw [lruLoop_succ]
    by_cases h : s.desired_size < s.current_size
    · rw [if_pos h]
      exact ih _ _ (inv_removeLRU s hI)
    · rw [if_neg h]
      exact hI

/-- `prune` preserves the structural invariant. -/
theorem inv_prune (s : BetterCache) (now : Instant) (hI : Inv s) :
    Inv (s.prune now).2 := by
  rw [BetterCache.prune]
  by_cases h : s.current_size ≤ s.desired_size
  · rw [if_pos h]
    exact hI
  · rw [if_neg h]
    exact inv_lruLoop _ _ _ (inv_removeExpired s now hI)

/-- Every public operation preserves the structural invariant. -/
theorem inv_applyOp (s : BetterCache) (op : CacheOp) (hI : Inv s) :
    Inv (applyOp s op) := by
  cases op with
  | get now name qtype qclass => exact inv_get s now name qtype qclass hI
  | insert now record => exact inv_insert s now record hI
  | prune now => exact inv_prune s now hI

/-- Operation sequences preserve the structural invariant. -/
theorem inv_applyOps (s : BetterCache) (ops : List CacheOp) (hI : Inv s) :
    Inv (applyOps s ops) := by
  induction ops generalizing s with
  | nil => exact hI
  | cons op rest ih => exact ih _ (inv_applyOp s op hI)

/-- The freshly constructed cache satisfies the invariant. -/
theorem inv_emptyCache (c : Nat) : Inv (emptyCache c) := by
  refine ⟨?_, ?_, ?_, ?_, ?_, ?_, ?_, ?_, ?_, ?_, ?_, ?_, ?_, ?_, ?_⟩ <;>
    simp [emptyCache, keysOf]

/-- A successful construction yields an invariant-satisfying cache. -/
theorem inv_withDesiredSize {c : Nat} {s : BetterCache}
    (h : withDesiredSize c = some s) : Inv s := by
  rw [withDesiredSize] at h
  by_cases hc : c = 0
  · rw [if_pos hc] at h
    exact Option.noConfusion h
  · rw [if_neg hc] at h
    rcases Option.some.inj h with rfl
    exact inv_emptyCache c

/-- Under the invariant, `current_size` is the total stored tuple count. -/
theorem inv_current_eq_total {s : BetterCache} (hI : Inv s) :
    s.current_size = totalTuples s := by
  rw [hI.sizeSum, totalTuples]
  exact congrArg List.sum (List.map_eq_map_iff.mpr
    (fun kv hkv => hI.sizeCount kv hkv))

/-- Under the invariant, an empty access queue means an empty cache. -/
theorem entries_nil_of_access_nil {s : BetterCache} (hI : Inv s)
    (h : s.access_priority = []) : s.entries = [] := by
  cases he : s.entries with
  | nil => rfl
  | cons kv rest =>
    have hk : kv.1 ∈ keysOf s.entries := by
      rw [he]
      exact mem_key_of_mem (List.mem_cons_self kv rest)
    have := hI.keysEA kv.1 hk
    rw [h] at this
    exact absurd this (List.not_mem_nil _)

/-- Under the invariant, an empty expiry queue means an empty cache. -/
theorem entries_nil_of_expiry_nil {s : BetterCache} (hI : Inv s)
    (h : s.expiry_priority = []) : s.entries = [] := by
  cases he : s.entries with
  | nil => rfl
  | cons kv rest =>
    have hk : kv.1 ∈ keysOf s.entries := by
      rw [he]
      exact mem_key_of_mem (List.mem_cons_self kv rest)
    have := hI.keysEX kv.1 hk
    rw [h] at this
    exact absurd this (List.not_mem_nil _)

theorem desired_removeLRU (s : BetterCache) :
    (s.removeLeastRecentlyUsed).2.desired_size = s.desired_size := by
  cases hpop : pqPop s.access_priority with
  | none => rw [removeLRU_of_none hpop]
  | some xr =>
    obtain ⟨x, acc⟩ := xr
    cases hent : lookupKey x.1 s.entries with
    | none => rw [removeLRU_of_some_absent hpop hent]
    | some entry => rw [removeLRU_of_some hpop hent]

theorem desired_expStep (s : BetterCache) (now : Instant) :
    (s.removeExpiredStep now).2.desired_size = s.desired_size := by
  cases hpop : pqPop s.expiry_priority with
  | none => rw [expStep_of_none hpop]
  | some xr =>
    obtain ⟨x, rest⟩ := xr
    by_cases hf : now < x.2
    · rw [expStep_of_future hpop hf]
    · cases hent : lookupKey x.1 s.entries with
      | none => rw [expStep_of_due_absent hpop hf hent]
      | some entry =>
        cases hmin : foldOptMin (((filterLive now entry.records).map
            (fun g => g.2)).flatten) with
        | some ne => rw [expStep_of_due_some hpop hf hent hmin]
        | none => rw [expStep_of_due_none hpop hf hent hmin]

theorem desired_expLoop (now : Instant) :
    ∀ (fuel acc : Nat) (s : BetterCache),
      (removeExpiredLoop now fuel acc s).2.desired_size = s.desired_size := by
  intro fuel
  induction fuel with
  | zero => intro acc s; rfl
  | succ fuel ih =>
    intro acc s
    rw [removeExpiredLoop_succ]
    by_cases h : (s.removeExpiredStep now).1 = 0
    · rw [if_pos h]
      exact desired_expStep s now
    · rw [if_neg h, ih]
      exact desired_expStep s now

theorem desired_lruLoop :
    ∀ (fuel acc : Nat) (s : BetterCache),
      (lruLoop fuel acc s).2.desired_size = s.desired_size := by
  intro fuel
  induction fuel with
  | zero => intro acc s; rfl
  | succ fuel ih =>
    intro acc s
    rw [lruLoop_succ]
    by_cases h : s.desired_size < s.current_size
    · rw [if_pos h, ih]
      exact desired_removeLRU s
    · rw [if_neg h]

theorem desired_removeExpired (s : BetterCache) (now : Instant) :
    (s.removeExpired now).2.desired_size = s.desired_size := by
  rw [BetterCache.removeExpired]
  exact desired_expLoop now _ 0 s

theorem desired_prune (s : BetterCache) (now : Instant) :
    (s.prune now).2.desired_size = s.desired_size := by
  rw [BetterCache.prune]
  by_cases h : s.current_size ≤ s.desired_size
  · rw [if_pos h]
  · rw [if_neg h, desired_lruLoop, desired_removeExpired]

/-- Under the invariant, an LRU step taken while over the bound strictly
decreases `current_size` (by the size of the evicted entry). -/
theorem removeLRU_decreases {s : BetterCache} (hI : Inv s)
    (h : s.desired_size < s.current_size) :
    (s.removeLeastRecentlyUsed).2.current_size < s.current_size := by
  have hcur : 0 < s.current_size := Nat.lt_of_le_of_lt (Nat.zero_le _) h
  have hne : s.access_priority ≠ [] := by
    intro hc
    have hent := entries_nil_of_access_nil hI hc
    rw [inv_current_eq_total hI, totalTuples, hent] at hcur
    simp at hcur
  cases hpop : pqPop s.access_priority with
  | none => exact absurd (pqPop_eq_none_iff.mp hpop) hne
  | some xr =>
    obtain ⟨x, acc⟩ := xr
    obtain ⟨A1, A2, hA, hAcc, _⟩ := pqPop_split hpop
    have hxE : x.1 ∈ keysOf s.entries := hI.keysAE x.1 (by
      rw [hA]
      exact mem_key_of_mem mem_split_self)
    cases hent : lookupKey x.1 s.entries with
    | none => exact absurd hxE (lookupKey_eq_none.mp hent)
    | some entry =>
      rw [removeLRU_of_some hpop hent]
      have hmem : (x.1, entry) ∈ s.entries := lookupKey_mem hent
      have h1 : 1 ≤ entry.size := by
        rw [hI.sizeCount _ hmem]
        exact hI.sizePos _ hmem
      have h2 : entry.size ≤ s.current_size := entry_size_le_current hI hmem
      show s.current_size - entry.size < s.current_size
      omega

/-- A productive expiry step strictly decreases the total tuple count
(in every state). -/
theorem expStep_decreases {s : BetterCache} {now : Instant}
    (h : (s.removeExpiredStep now).1 ≠ 0) :
    totalTuples (s.removeExpiredStep now).2 < totalTuples s := by
  cases hpop : pqPop s.expiry_priority with
  | none => rw [expStep_of_none hpop] at h; exact absurd rfl h
  | some xr =>
    obtain ⟨x, rest⟩ := xr
    by_cases hf : now < x.2
    · rw [expStep_of_future hpop hf] at h
      exact absurd rfl h
    · cases hent : lookupKey x.1 s.entries with
      | none =>
        rw [expStep_of_due_absent hpop hf hent] at h
        exact absurd rfl h
      | some entry =>
        obtain ⟨E1, E2, hE, he1⟩ := lookupKey_split hent
        have hfsle := @filtered_sum_le now entry
        cases hmin : foldOptMin (((filterLive now entry.records).map
            (fun g => g.2)).flatten) with
        | some ne =>
          rw [expStep_of_due_some hpop hf hent hmin] at h ⊢
          have hupd : updateKey x.1 (fun e =>
              { e with
                records := filterLive now entry.records
                size := e.size - (tupleCount entry -
                  ((filterLive now entry.records).map
                    (fun g => g.2.length)).sum)
                next_expiry := ne }) s.entries
              = E1 ++ (x.1,
                { entry with
                  records := filterLive now entry.records
                  size := entry.size - (tupleCount entry -
                    ((filterLive now entry.records).map
                      (fun g => g.2.length)).sum)
                  next_expiry := ne }) :: E2 := by
            rw [hE, updateKey_append_left he1, updateKey_cons_self]
          show totalTuples _ < totalTuples s
          rw [totalTuples, totalTuples, hupd, hE]
          simp only [List.map_append, List.sum_append, List.map_cons,
            List.sum_cons] at h ⊢
          have hc : tupleCount
              { entry with
                records := filterLive now entry.records
                size := entry.size - (tupleCount entry -
                  ((filterLive now entry.records).map
                    (fun g => g.2.length)).sum)
                next_expiry := ne }
              = ((filterLive now entry.records).map
                  (fun g => g.2.length)).sum := rfl
          rw [hc]
          omega
        | none =>
          rw [expStep_of_due_none hpop hf hent hmin] at h ⊢
          have hrem : removeKey x.1 s.entries = E1 ++ E2 := by
            rw [hE, removeKey_append_left he1, removeKey_cons_self]
          show totalTuples _ < totalTuples s
          rw [totalTuples, totalTuples, hrem, hE]
          simp only [List.map_append, List.sum_append, List.map_cons,
            List.sum_cons] at h ⊢
          omega

theorem tupleCount_eq_length_allTuples (e : CachedDomainRecords) :
    tupleCount e = (allTuples e).length := by
  rw [tupleCount, allTuples, List.length_flatten, List.map_map]
  rfl

theorem survivors_eq_filter (now : Instant) (e : CachedDomainRecords) :
    ((filterLive now e.records).map (fun g => g.2)).flatten
      = (allTuples e).filter (fun t => now < t.2.2) := by
  rw [allTuples, List.filter_flatten, filterLive, List.map_map, List.map_map]
  rfl

/-- One expiry step, on a state with accurate `next_expiry` fields:
accuracy and the live-tuple count are preserved, the return value
accounts exactly for the tuples dropped, and a zero return means nothing
in the cache is expired. -/
theorem expStep_spec {s : BetterCache} {now : Instant} (hI : Inv s)
    (hAcc : AccurateExpiry s) :
    AccurateExpiry (s.removeExpiredStep now).2 ∧
    totalLive (s.removeExpiredStep now).2 now = totalLive s now ∧
    totalTuples (s.removeExpiredStep now).2 + (s.removeExpiredStep now).1
      = totalTuples s ∧
    ((s.removeExpiredStep now).1 = 0 →
      NoExpired (s.removeExpiredStep now).2 now) := by
  cases hpop : pqPop s.expiry_priority with
  | none =>
    rw [expStep_of_none hpop]
    have hnil : s.entries = [] :=
      entries_nil_of_expiry_nil hI (pqPop_eq_none_iff.mp hpop)
    refine ⟨hAcc, rfl, by show totalTuples s + 0 = totalTuples s; omega,
      fun _ => ?_⟩
    intro kv hkv
    rw [hnil] at hkv
    exact absurd hkv (List.not_mem_nil kv)
  | some xr =>
    obtain ⟨x, rest⟩ := xr
    obtain ⟨X1, X2, hX, hrest, hminX⟩ := pqPop_split hpop
    obtain ⟨hx1, _⟩ := nodup_split_not_mem (hX ▸ hI.nodupX)
    have hlookx : lookupKey x.1 s.expiry_priority = some x.2 := by
      rw [hX]
      exact lookupKey_eq_some_of_split hx1
    by_cases hf : now < x.2
    · rw [expStep_of_future hpop hf]
      refine ⟨hAcc, rfl, ?_, fun _ => ?_⟩
      case _ => simp [totalTuples]
      intro kv hkv t ht
      have h1 := hI.syncX kv hkv
      have h2 : x.2 ≤ kv.2.next_expiry := hminX _ (lookupKey_mem h1)
      exact lt_of_lt_of_le (lt_of_lt_of_le hf h2) (hAcc kv hkv t ht)
    · have hxE : x.1 ∈ keysOf s.entries :=
        hI.keysXE x.1 (by rw [hX]; exact mem_key_of_mem mem_split_self)
      cases hent : lookupKey x.1 s.entries with
      | none => exact absurd hxE (lookupKey_eq_none.mp hent)
      | some entry =>
        obtain ⟨E1, E2, hE, he1, he2⟩ := lookup_nodup_split hent hI.nodupE
        have hmemSelf : (x.1, entry) ∈ s.entries := hE ▸ mem_split_self
        have hx2eq : x.2 = entry.next_expiry := by
          have h1 := hI.syncX (x.1, entry) hmemSelf
          rw [hlookx] at h1
          exact Option.some.inj h1
        have hNEle : entry.next_expiry ≤ now := by
          rw [← hx2eq]
          exact le_of_not_lt hf
        obtain ⟨u, hu, hue⟩ : ∃ u ∈ allTuples entry,
            u.2.2 = entry.next_expiry := by
          obtain ⟨v, hv, hve⟩ := List.mem_map.mp (hI.neMem (x.1, entry) hmemSelf)
          exact ⟨v, hv, hve⟩
        have hunl : ¬ (now < u.2.2) := by
          rw [hue]
          exact not_lt.mpr hNEle
        have hFSlt : ((filterLive now entry.records).map
            (fun g => g.2.length)).sum < tupleCount entry := by
          have h1 : (((filterLive now entry.records).map
              (fun g => g.2)).flatten).length
              = ((filterLive now entry.records).map
                (fun g => g.2.length)).sum := by
            rw [List.length_flatten, List.map_map]
            rfl
          rw [← h1, survivors_eq_filter, tupleCount_eq_length_allTuples]
          exact List.length_filter_lt_length_iff_exists.mpr
            ⟨u, hu, by simpa using hunl⟩
        have hfsle := @filtered_sum_le now entry
        cases hmin : foldOptMin (((filterLive now entry.records).map
            (fun g => g.2)).flatten) with
        | some ne =>
          rw [expStep_of_due_some hpop hf hent hmin]
          have hupd : updateKey x.1 (fun e =>
              { e with
                records := filterLive now entry.records
                size := e.size - (tupleCount entry -
                  ((filterLive now entry.records).map
                    (fun g => g.2.length)).sum)
                next_expiry := ne }) s.entries
              = E1 ++ (x.1,
                { entry with
                  records := filterLive now entry.records
                  size := entry.size - (tupleCount entry -
                    ((filterLive now entry.records).map
                      (fun g => g.2.length)).sum)
                  next_expiry := ne }) :: E2 := by
            rw [hE, updateKey_append_left he1, updateKey_cons_self]
          have hallE' : allTuples
              { entry with
                records := filterLive now entry.records
                size := entry.size - (tupleCount entry -
                  ((filterLive now entry.records).map
                    (fun g => g.2.length)).sum)
                next_expiry := ne }
              = (allTuples entry).filter (fun t => now < t.2.2) :=
            survivors_eq_filter now entry
          refine ⟨?_, ?_, ?_, ?_⟩
          · intro kv hkv
            rw [hupd] at hkv
            rcases mem_split_cases hkv with rfl | hmem
            · intro t ht
              rw [hallE'] at ht
              exact foldOptMin_le hmin t (by rw [survivors_eq_filter]; exact ht)
            · exact hAcc kv (hE ▸ mem_of_mem_sides hmem)
          · show totalLive _ now = totalLive s now
            rw [totalLive, totalLive, hupd, hE]
            simp only [List.map_append, List.sum_append, List.map_cons,
              List.sum_cons]
            have hlc : liveCount
                { entry with
                  records := filterLive now entry.records
                  size := entry.size - (tupleCount entry -
                    ((filterLive now entry.records).map
                      (fun g => g.2.length)).sum)
                  next_expiry := ne } now = liveCount entry now := by
              rw [liveCount, liveCount, hallE', List.filter_filter]
              simp
            rw [hlc]
          · show totalTuples _ + _ = totalTuples s
            rw [totalTuples, totalTuples, hupd, hE]
            simp only [List.map_append, List.sum_append, List.map_cons,
              List.sum_cons]
            have hc : tupleCount
                { entry with
                  records := filterLive now entry.records
                  size := entry.size - (tupleCount entry -
                    ((filterLive now entry.records).map
                      (fun g => g.2.length)).sum)
                  next_expiry := ne }
                = ((filterLive now entry.records).map
                    (fun g => g.2.length)).sum := rfl
            rw [hc]
            omega
          · intro h0
            exact absurd h0 (by omega)
        | none =>
          rw [expStep_of_due_none hpop hf hent hmin]
          have hrem : removeKey x.1 s.entries = E1 ++ E2 := by
            rw [hE, removeKey_append_left he1, removeKey_cons_self]
          have hFS0 : ((filterLive now entry.records).map
              (fun g => g.2.length)).sum = 0 := by
            have h1 : (((filterLive now entry.records).map
                (fun g => g.2)).flatten).length
                = ((filterLive now entry.records).map
                  (fun g => g.2.length)).sum := by
              rw [List.length_flatten, List.map_map]
              rfl
            rw [← h1, foldOptMin_eq_none_iff.mp hmin]
            rfl
          have hlc0 : liveCount entry now = 0 := by
            rw [liveCount]
            have := survivors_eq_filter now entry
            rw [foldOptMin_eq_none_iff.mp hmin] at this
            rw [← this]
            rfl
          refine ⟨?_, ?_, ?_, ?_⟩
          · intro kv hkv
            rw [hrem] at hkv
            exact hAcc kv (hE ▸ mem_of_mem_sides hkv)
          · show totalLive _ now = totalLive s now
            rw [totalLive, totalLive, hrem, hE]
            simp only [List.map_append, List.sum_append, List.map_cons,
              List.sum_cons]
            rw [hlc0]
            omega
          · show totalTuples _ + _ = totalTuples s
            rw [totalTuples, totalTuples, hrem, hE]
            simp only [List.map_append, List.sum_append, List.map_cons,
              List.sum_cons]
            omega
          · intro h0
            have hpos := hI.sizePos (x.1, entry) hmemSelf
            exact absurd h0 (by omega)

/-- The expiry loop, on a state with accurate expiries and enough fuel:
it preserves the invariant and accuracy, removes exactly the expired
tuples (the live count is untouched and the final state has no expired
tuple), and returns the number of tuples it removed. -/
theorem expLoop_spec (now : Instant) :
    ∀ (fuel acc : Nat) (s : BetterCache), Inv s → AccurateExpiry s →
      totalTuples s < fuel →
      Inv (removeExpiredLoop now fuel acc s).2 ∧
      AccurateExpiry (removeExpiredLoop now fuel acc s).2 ∧
      NoExpired (removeExpiredLoop now fuel acc s).2 now ∧
      totalLive (removeExpiredLoop now fuel acc s).2 now = totalLive s now ∧
      (removeExpiredLoop now fuel acc s).1 +
        totalTuples (removeExpiredLoop now fuel acc s).2
        = acc + totalTuples s := by
  intro fuel
  induction fuel with
  | zero => intro acc s _ _ hfuel; omega
  | succ fuel ih =>
    intro acc s hI hAcc hfuel
    obtain ⟨hA', hTL, hTT, hNE0⟩ := expStep_spec hI hAcc
    rw [removeExpiredLoop_succ]
    by_cases h : (s.removeExpiredStep now).1 = 0
    · rw [if_pos h]
      refine ⟨inv_expStep s now hI, hA', hNE0 h, hTL, ?_⟩
      show acc + totalTuples (s.removeExpiredStep now).2 = acc + totalTuples s
      omega
    · rw [if_neg h]
      have hfuel' : totalTuples (s.removeExpiredStep now).2 < fuel := by omega
      obtain ⟨h1, h2, h3, h4, h5⟩ := ih (acc + (s.removeExpiredStep now).1)
        (s.removeExpiredStep now).2 (inv_expStep s now hI) hA' hfuel'
      exact ⟨h1, h2, h3, h4.trans hTL, by omega⟩

/-- `remove_expired` on an accurate state: the instantiated loop
specification. -/
theorem removeExpired_spec {s : BetterCache} {now : Instant} (hI : Inv s)
    (hAcc : AccurateExpiry s) :
    Inv (s.removeExpired now).2 ∧
    AccurateExpiry (s.removeExpired now).2 ∧
    NoExpired (s.removeExpired now).2 now ∧
    totalLive (s.removeExpired now).2 now = totalLive s now ∧
    (s.removeExpired now).1 + totalTuples (s.removeExpired now).2
      = totalTuples s := by
  have h := expLoop_spec now (totalTuples s + 1) 0 s hI hAcc (by omega)
  rw [BetterCache.removeExpired]
  simpa using h

/-- The LRU loop, with enough fuel, drives `current_size` at or below
the bound, accounts exactly for the removed tuples, and never
resurrects expired data. -/
theorem lruLoop_spec (now : Instant) :
    ∀ (fuel acc : Nat) (s : BetterCache), Inv s →
      s.access_priority.length < fuel →
      (lruLoop fuel acc s).2.current_size ≤ s.desired_size ∧
      (lruLoop fuel acc s).1 + (lruLoop fuel acc s).2.current_size
        = acc + s.current_size ∧
      Inv (lruLoop fuel acc s).2 ∧
      (NoExpired s now → NoExpired (lruLoop fuel acc s).2 now) := by
  intro fuel
  induction fuel with
  | zero => intro acc s _ hfuel; omega
  | succ fuel ih =>
    intro acc s hI hfuel
    rw [lruLoop_succ]
    by_cases h : s.desired_size < s.current_size
    · rw [if_pos h]
      have hcur : 0 < s.current_size := Nat.lt_of_le_of_lt (Nat.zero_le _) h
      have hne : s.access_priority ≠ [] := by
        intro hc
        have hent := entries_nil_of_access_nil hI hc
        rw [inv_current_eq_total hI, totalTuples, hent] at hcur
        simp at hcur
      cases hpop : pqPop s.access_priority with
      | none => exact absurd (pqPop_eq_none_iff.mp hpop) hne
      | some xr =>
        obtain ⟨x, acc'⟩ := xr
        obtain ⟨A1, A2, hA, hAcc', _⟩ := pqPop_split hpop
        have hlen : acc'.length + 1 = s.access_priority.length := by
          rw [hA, hAcc']
          simp
          omega
        have hxE : x.1 ∈ keysOf s.entries := hI.keysAE x.1 (by
          rw [hA]
          exact mem_key_of_mem mem_split_self)
        cases hent : lookupKey x.1 s.entries with
        | none => exact absurd hxE (lookupKey_eq_none.mp hent)
        | some entry =>
          have hstep1 : (s.removeLeastRecentlyUsed).1 = entry.size := by
            rw [removeLRU_of_some hpop hent]
          have hstep2 : (s.removeLeastRecentlyUsed).2 =
              { s with
                entries := removeKey x.1 s.entries
                access_priority := acc'
                expiry_priority := pqRemove x.1 s.expiry_priority
                current_size := s.current_size - entry.size } := by
            rw [removeLRU_of_some hpop hent]
          have hmem : (x.1, entry) ∈ s.entries := lookupKey_mem hent
          have hszle : entry.size ≤ s.current_size :=
            entry_size_le_current hI hmem
          have hInv' : Inv
              ({ s with
                entries := removeKey x.1 s.entries
                access_priority := acc'
                expiry_priority := pqRemove x.1 s.expiry_priority
                current_size := s.current_size - entry.size } : BetterCache) :=
            hstep2 ▸ inv_removeLRU s hI
          rw [hstep1, hstep2]
          obtain ⟨h1, h2, h3, h4⟩ := ih (acc + entry.size) _ hInv'
            (by show acc'.length < fuel; omega)
          dsimp only at h1 h2 h4
          refine ⟨h1, ?_, h3, ?_⟩
          · omega
          · intro hnexp
            refine h4 ?_
            intro kv hkv
            exact hnexp kv ((removeKey_sublist x.1 s.entries).subset hkv)
    · rw [if_neg h]
      exact ⟨le_of_not_lt h, rfl, hI, fun hne => hne⟩

/-- The LRU step, on a non-empty invariant-satisfying cache, evicts a
domain of minimal `last_read`, wholesale, from all three structures. -/
theorem removeLRU_order {s : BetterCache} (hI : Inv s)
    (hne : s.entries ≠ []) :
    ∃ name entry, lookupKey name s.entries = some entry ∧
      (∀ kv ∈ s.entries, entry.last_read ≤ kv.2.last_read) ∧
      (s.removeLeastRecentlyUsed).1 = entry.size ∧
      (s.removeLeastRecentlyUsed).2.entries = removeKey name s.entries ∧
      (s.removeLeastRecentlyUsed).2.current_size
        = s.current_size - entry.size ∧
      name ∉ keysOf (s.removeLeastRecentlyUsed).2.entries ∧
      name ∉ keysOf (s.removeLeastRecentlyUsed).2.access_priority ∧
      name ∉ keysOf (s.removeLeastRecentlyUsed).2.expiry_priority := by
  have hane : s.access_priority ≠ [] := by
    intro hc
    exact hne (entries_nil_of_access_nil hI hc)
  cases hpop : pqPop s.access_priority with
  | none => exact absurd (pqPop_eq_none_iff.mp hpop) hane
  | some xr =>
    obtain ⟨x, acc⟩ := xr
    obtain ⟨A1, A2, hA, hAcc, hmin⟩ := pqPop_split hpop
    obtain ⟨ha1, ha2⟩ := nodup_split_not_mem (hA ▸ hI.nodupA)
    have hxE : x.1 ∈ keysOf s.entries := hI.keysAE x.1 (by
      rw [hA]
      exact mem_key_of_mem mem_split_self)
    cases hent : lookupKey x.1 s.entries with
    | none => exact absurd hxE (lookupKey_eq_none.mp hent)
    | some entry =>
      obtain ⟨E1, E2, hE, he1, he2⟩ := lookup_nodup_split hent hI.nodupE
      have hmemSelf : (x.1, entry) ∈ s.entries := lookupKey_mem hent
      have hlr : entry.last_read = x.2 := by
        have h1 := hI.syncA (x.1, entry) hmemSelf
        have h2 : lookupKey x.1 s.access_priority = some x.2 := by
          rw [hA]
          exact lookupKey_eq_some_of_split ha1
        rw [h2] at h1
        exact (Option.some.inj h1).symm
      have hxv : ∃ v, lookupKey x.1 s.expiry_priority = some v :=
        ⟨entry.next_expiry, hI.syncX (x.1, entry) hmemSelf⟩
      obtain ⟨xv, hxvl⟩ := hxv
      obtain ⟨X1, X2, hX, hx1, hx2⟩ := lookup_nodup_split hxvl hI.nodupX
      rw [removeLRU_of_some hpop hent]
      refine ⟨x.1, entry, hent, ?_, rfl, rfl, rfl, ?_, ?_, ?_⟩
      · intro kv hkv
        rw [hlr]
        have h1 := hI.syncA kv hkv
        exact hmin _ (lookupKey_mem h1)
      · show x.1 ∉ keysOf (removeKey x.1 s.entries)
        rw [hE, removeKey_append_left he1, removeKey_cons_self]
        simp only [keysOf_append, List.mem_append]
        rintro (h | h)
        · exact he1 h
        · exact he2 h
      · show x.1 ∉ keysOf acc
        rw [hAcc]
        simp only [keysOf_append, List.mem_append]
        rintro (h | h)
        · exact ha1 h
        · exact ha2 h
      · show x.1 ∉ keysOf (pqRemove x.1 s.expiry_priority)
        rw [pqRemove, hX, removeKey_append_left hx1, removeKey_cons_self]
        simp only [keysOf_append, List.mem_append]
        rintro (h | h)
        · exact hx1 h
        · exact hx2 h

theorem prune_of_under {s : BetterCache} {now : Instant}
    (h : s.current_size ≤ s.desired_size) : s.prune now = (0, s) := by
  rw [BetterCache.prune, if_pos h]

theorem prune_of_over {s : BetterCache} {now : Instant}
    (h : ¬ s.current_size ≤ s.desired_size) :
    s.prune now = lruLoop ((s.removeExpired now).2.access_priority.length + 1)
      (s.removeExpired now).1 (s.removeExpired now).2 := by
  rw [BetterCache.prune, if_neg h]

/-- The full `prune` specification on an accurate state: a no-op under
the bound; otherwise the expiry pass removes exactly the expired tuples
and the LRU pass drives the size within the bound, the return value
counting every removed tuple. -/
theorem prune_spec {s : BetterCache} {now : Instant} (hI : Inv s)
    (hAcc : AccurateExpiry s) (hover : ¬ s.current_size ≤ s.desired_size) :
    NoExpired (s.removeExpired now).2 now ∧
    totalLive (s.removeExpired now).2 now = totalLive s now ∧
    (s.removeExpired now).1 + totalTuples (s.removeExpired now).2
      = totalTuples s ∧
    (s.prune now).2.current_size ≤ s.desired_size ∧
    (s.prune now).1 + totalTuples (s.prune now).2 = totalTuples s ∧
    NoExpired (s.prune now).2 now := by
  obtain ⟨hI1, hA1, hNE1, hTL1, hTT1⟩ := removeExpired_spec hI hAcc
  obtain ⟨hle, hacct, hI2, hNE2⟩ := lruLoop_spec now
    ((s.removeExpired now).2.access_priority.length + 1)
    (s.removeExpired now).1 (s.removeExpired now).2 hI1 (by omega)
  have hdes : (s.removeExpired now).2.desired_size = s.desired_size :=
    desired_removeExpired s now
  rw [prune_of_over hover]
  refine ⟨hNE1, hTL1, hTT1, by rw [← hdes]; exact hle, ?_, hNE2 hNE1⟩
  have hc1 := inv_current_eq_total hI1
  have hc2 := inv_current_eq_total hI2
  omega

/-- Whatever the state, the freshly inserted tuple is present in its
type group afterwards. -/
theorem insert_tuple_mem (s : BetterCache) (now : Instant)
    (record : ResourceRecord) :
    ∃ e', lookupKey record.name (s.insert now record).entries = some e' ∧
      (record.rtype, record.rclass, now + record.ttl) ∈
        (lookupKey record.rtype.rtype e'.records).getD [] := by
  cases hE : lookupKey record.name s.entries with
  | none =>
    rw [insert_of_absent hE]
    dsimp only
    simp only [lookupKey_append_left (lookupKey_eq_none.mp hE),
      lookupKey_cons_self]
    refine ⟨_, rfl, ?_⟩
    simp
  | some entry =>
    cases hG : lookupKey record.rtype.rtype entry.records with
    | none =>
      rw [insert_of_new_group hE hG]
      dsimp only
      simp only [lookupKey_updateKey_self, hE, Option.map_some]
      refine ⟨_, rfl, ?_⟩
      dsimp only
      simp only [lookupKey_append_left (lookupKey_eq_none.mp hG),
        lookupKey_cons_self]
      simp
    | some tuples =>
      cases hF : findIdxElem (dupPred record) tuples with
      | none =>
        rw [insert_of_no_dup hE hG hF]
        dsimp only
        simp only [lookupKey_updateKey_self, hE, Option.map_some]
        refine ⟨_, rfl, ?_⟩
        dsimp only
        simp only [lookupKey_updateKey_self, hG, Option.map_some]
        simp
      | some it =>
        obtain ⟨i, t⟩ := it
        by_cases hD : t.2.2 = entry.next_expiry
        · rw [insert_of_dup_eq hE hG hF hD]
          dsimp only
          simp only [lookupKey_updateKey_self, hE, Option.map_some]
          refine ⟨_, rfl, ?_⟩
          dsimp only
          simp only [lookupKey_updateKey_self, hG, Option.map_some]
          simp
        · rw [insert_of_dup_ne hE hG hF hD]
          dsimp only
          simp only [lookupKey_updateKey_self, hE, Option.map_some]
          refine ⟨_, rfl, ?_⟩
          dsimp only
          simp only [lookupKey_updateKey_self, hG, Option.map_some]
          simp

theorem matchedTuples_subset (e : CachedDomainRecords) (qtype : QueryType) :
    ∀ t ∈ matchedTuples e qtype, t ∈ allTuples e := by
  cases qtype with
  | Wildcard => exact fun t ht => ht
  | Record rt =>
    intro t ht
    cases hg : lookupKey rt e.records with
    | none =>
      rw [matchedTuples, hg] at ht
      exact absurd ht (List.not_mem_nil t)
    | some ts =>
      rw [matchedTuples, hg] at ht
      exact List.mem_flatten.mpr
        ⟨ts, List.mem_map_of_mem (fun g => g.2) (lookupKey_mem hg), ht⟩

theorem get_fst {s : BetterCache} {now : Instant} {name : DomainName}
    {qtype : QueryType} {qclass : QueryClass} {e : CachedDomainRecords}
    (h : lookupKey name s.entries = some e) :
    (s.get now name qtype qclass).1 = getRrs e now name qtype qclass := by
  by_cases hrrs : getRrs e now name qtype qclass = []
  · rw [get_of_empty h hrrs, hrrs]
  · rw [get_of_hit h hrrs]

end PruneStepLemmas

/-! ## The claims -/

section Claims

/-- C1: for every sequence of get/insert/prune operations on a cache
built with positive capacity, after each operation the key sets of
`entries`, `access_priority` and `expiry_priority` are identical,
`current_size` equals the sum of the entries' `size` fields, and each
entry's `size` field equals the number of stored tuples under that
domain. -/
theorem C1_structural_invariant (c : Nat) (s0 : BetterCache)
    (ops : List CacheOp) (h : withDesiredSize c = some s0) :
    (∀ n, n ∈ keysOf (applyOps s0 ops).entries ↔
      n ∈ keysOf (applyOps s0 ops).access_priority) ∧
    (∀ n, n ∈ keysOf (applyOps s0 ops).entries ↔
      n ∈ keysOf (applyOps s0 ops).expiry_priority) ∧
    (applyOps s0 ops).current_size
      = ((applyOps s0 ops).entries.map (fun kv => kv.2.size)).sum ∧
    ∀ kv ∈ (applyOps s0 ops).entries, kv.2.size = tupleCount kv.2 := by
  have hI := inv_applyOps s0 ops (inv_withDesiredSize h)
  exact ⟨fun n => ⟨hI.keysEA n, hI.keysAE n⟩,
    fun n => ⟨hI.keysEX n, hI.keysXE n⟩, hI.sizeSum, hI.sizeCount⟩

theorem C1_witness :
    withDesiredSize 1 = some (emptyCache 1) ∧
    ((∀ n, n ∈ keysOf (applyOps (emptyCache 1) exStaleOps).entries ↔
      n ∈ keysOf (applyOps (emptyCache 1) exStaleOps).access_priority) ∧
    (∀ n, n ∈ keysOf (applyOps (emptyCache 1) exStaleOps).entries ↔
      n ∈ keysOf (applyOps (emptyCache 1) exStaleOps).expiry_priority) ∧
    (applyOps (emptyCache 1) exStaleOps).current_size
      = ((applyOps (emptyCache 1) exStaleOps).entries.map
          (fun kv => kv.2.size)).sum ∧
    ∀ kv ∈ (applyOps (emptyCache 1) exStaleOps).entries,
      kv.2.size = tupleCount kv.2) :=
  ⟨rfl, C1_structural_invariant 1 (emptyCache 1) exStaleOps rfl⟩

/-- C2 (counterexample): after the reachable sequence `exStaleOps`
(insert A-record TTL 10, insert CNAME TTL 20, re-insert the same
A-record with TTL 30, all at instant 0), the domain's `next_expiry` is
30 although a stored tuple expires at 20 — so `next_expiry` is NOT the
minimum expiry over the domain's tuples, refuting the claimed
invariant. -/
theorem C2_counterexample :
    withDesiredSize 1 = some (emptyCache 1) ∧
    ∃ e, lookupKey exDomX (applyOps (emptyCache 1) exStaleOps).entries
        = some e ∧
      e.next_expiry = 30 ∧ 20 ∈ expiriesOf e ∧ ¬ e.next_expiry ≤ 20 :=
  ⟨rfl, ⟨_, rfl, by decide, by decide, by decide⟩⟩

/-- C2 (amended): for every operation sequence on a cache built with
positive capacity, every present domain's `next_expiry` equals the
expiry instant of SOME currently stored tuple of that domain (hence is
an upper bound on the minimum, but possibly not the minimum itself, as
the duplicate-replacement branch of `insert` rescans only one type
group), and the domain's key in `expiry_priority` carries that same
instant. -/
theorem C2_next_expiry_amended (c : Nat) (s0 : BetterCache)
    (ops : List CacheOp) (h : withDesiredSize c = some s0) :
    ∀ kv ∈ (applyOps s0 ops).entries,
      kv.2.next_expiry ∈ expiriesOf kv.2 ∧
      lookupKey kv.1 (applyOps s0 ops).expiry_priority
        = some kv.2.next_expiry := by
  have hI := inv_applyOps s0 ops (inv_withDesiredSize h)
  exact fun kv hkv => ⟨hI.neMem kv hkv, hI.syncX kv hkv⟩

theorem C2_witness :
    withDesiredSize 1 = some (emptyCache 1) ∧
    ∀ kv ∈ (applyOps (emptyCache 1) exStaleOps).entries,
      kv.2.next_expiry ∈ expiriesOf kv.2 ∧
      lookupKey kv.1 (applyOps (emptyCache 1) exStaleOps).expiry_priority
        = some kv.2.next_expiry :=
  ⟨rfl, C2_next_expiry_amended 1 (emptyCache 1) exStaleOps rfl⟩

/-- C9: `with_desired_size` fails (panics, modelled as `none`) exactly
on capacity zero; on every positive capacity it returns the cache with
empty entries and priority queues, `current_size` 0 and the given
`desired_size`. -/
theorem C9_with_desired_size :
    withDesiredSize 0 = none ∧
    ∀ c : Nat, 0 < c → withDesiredSize c = some
      { entries := [], access_priority := [], expiry_priority := [],
        current_size := 0, desired_size := c } := by
  refine ⟨rfl, fun c hc => ?_⟩
  rw [withDesiredSize, if_neg (Nat.pos_iff_ne_zero.mp hc)]

theorem C9_witness :
    withDesiredSize 0 = none ∧ 0 < 3 ∧ withDesiredSize 3 = some
      { entries := [], access_priority := [], expiry_priority := [],
        current_size := 0, desired_size := 3 } :=
  ⟨C9_with_desired_size.1, by decide, C9_with_desired_size.2 3 (by decide)⟩

/-- C10: under the structural invariant, `prune` terminates: an LRU
iteration taken while over the bound strictly decreases `current_size`
(by the evicted entry's size), a productive expiry iteration strictly
decreases the total tuple count (a zero return ends the pass by the
loop's definition), and `prune` leaves `current_size` at or below
`desired_size`. -/
theorem C10_prune_terminates (s : BetterCache) (now : Instant)
    (hI : Inv s) :
    (s.desired_size < s.current_size →
      (s.removeLeastRecentlyUsed).2.current_size < s.current_size) ∧
    ((s.removeExpiredStep now).1 ≠ 0 →
      totalTuples (s.removeExpiredStep now).2 < totalTuples s) ∧
    (s.prune now).2.current_size ≤ s.desired_size := by
  refine ⟨fun h => removeLRU_decreases hI h,
    fun h => expStep_decreases h, ?_⟩
  by_cases h : s.current_size ≤ s.desired_size
  · rw [prune_of_under h]
    exact h
  · rw [prune_of_over h]
    obtain ⟨hle, _, _, _⟩ := lruLoop_spec now
      ((s.removeExpired now).2.access_priority.length + 1)
      (s.removeExpired now).1 (s.removeExpired now).2
      (inv_removeExpired s now hI) (by omega)
    rw [← desired_removeExpired s now]
    exact hle

theorem C10_witness :
    (exStaleState.desired_size < exStaleState.current_size →
      (exStaleState.removeLeastRecentlyUsed).2.current_size
        < exStaleState.current_size) ∧
    ((exStaleState.removeExpiredStep 25).1 ≠ 0 →
      totalTuples (exStaleState.removeExpiredStep 25).2
        < totalTuples exStaleState) ∧
    (exStaleState.prune 25).2.current_size ≤ exStaleState.desired_size :=
  C10_prune_terminates exStaleState 25
    (inv_applyOps (emptyCache 1) exStaleOps (inv_emptyCache 1))

/-- C3 (counterexample): with positive capacity 1 and a single A-record
of TTL 0, `current_size` (1) does not exceed `desired_size` (1), so
`prune()` is a no-op returning 0 and changing nothing, and a later
`get` still returns the stale record (with TTL clamped to 0) rather
than the empty sequence the claim requires. -/
theorem C3_counterexample :
    withDesiredSize 1 = some (emptyCache 1) ∧
    ((emptyCache 1).insert 0 (exRecA 0)).prune 5
      = (0, (emptyCache 1).insert 0 (exRecA 0)) ∧
    (((emptyCache 1).insert 0 (exRecA 0)).get 5 exDomX
      QueryType.Wildcard QueryClass.Wildcard).1 ≠ [] :=
  ⟨rfl, by decide, by decide⟩

/-- C3 (amended): `prune` acts only when `current_size` exceeds
`desired_size`.  When a second domain makes the capacity-1 cache
over-full, `prune` removes the domain whose sole A-record was inserted
with TTL 0 entirely (returning 1, its expired tuple) and a subsequent
`get` for that domain returns the empty sequence; with the TTL-0 record
alone, `prune` returns 0 and the record stays visible. -/
theorem C3_ttl_zero_amended :
    withDesiredSize 1 = some (emptyCache 1) ∧
    (((emptyCache 1).insert 0 (exRecA 0)).insert 0
        (exRecY 100)).desired_size <
      (((emptyCache 1).insert 0 (exRecA 0)).insert 0
        (exRecY 100)).current_size ∧
    ((((emptyCache 1).insert 0 (exRecA 0)).insert 0
        (exRecY 100)).prune 5).1 = 1 ∧
    lookupKey exDomX ((((emptyCache 1).insert 0 (exRecA 0)).insert 0
        (exRecY 100)).prune 5).2.entries = none ∧
    (((((emptyCache 1).insert 0 (exRecA 0)).insert 0
        (exRecY 100)).prune 5).2.get 5 exDomX
      QueryType.Wildcard QueryClass.Wildcard).1 = [] ∧
    ((emptyCache 1).insert 0 (exRecA 0)).prune 5
      = (0, (emptyCache 1).insert 0 (exRecA 0)) :=
  ⟨rfl, by decide, by decide, by decide, by decide, by decide⟩

/-- C8 (counterexample): insert an A-record with TTL 10, then re-insert
the same record with TTL 30, both at instant 0.  The replaced
duplicate's expiry (10) equals the domain's `next_expiry` (10); the
remaining group is empty, so the recomputed minimum is the incoming
expiry 30, which is not lower than itself, and 30 is not lower than the
current `next_expiry` 10 — by the claim's rule `next_expiry` would stay
10, but the code sets it to 30. -/
theorem C8_counterexample :
    (∃ e1, lookupKey exDomX ((emptyCache 5).insert 0 (exRecA 10)).entries
        = some e1 ∧ e1.next_expiry = 10) ∧
    (∃ e2, lookupKey exDomX
        (((emptyCache 5).insert 0 (exRecA 10)).insert 0 (exRecA 30)).entries
        = some e2 ∧ e2.next_expiry = 30) ∧
    ¬ (30 : Instant) < 10 :=
  ⟨⟨_, rfl, by decide⟩, ⟨_, rfl, by decide⟩, by decide⟩

/-- C8 (amended): when `insert` replaces a duplicate tuple whose expiry
equals the domain's current `next_expiry`, the new `next_expiry` is
exactly the minimum of the incoming expiry and the expiries of the
tuples remaining in that record type's group — no other group is
scanned — adopted unconditionally, and `expiry_priority` is re-keyed to
the resulting `next_expiry`. -/
theorem C8_next_expiry_amended {s : BetterCache} {now : Instant}
    {record : ResourceRecord} {entry : CachedDomainRecords}
    {tuples : List CachedTuple} {i : Nat} {t : CachedTuple} (hI : Inv s)
    (hE : lookupKey record.name s.entries = some entry)
    (hG : lookupKey record.rtype.rtype entry.records = some tuples)
    (hF : findIdxElem (dupPred record) tuples = some (i, t))
    (hD : t.2.2 = entry.next_expiry) :
    ∃ e', lookupKey record.name (s.insert now record).entries = some e' ∧
      e'.next_expiry = foldMin (swapRemove tuples i) (now + record.ttl) ∧
      e'.next_expiry ≤ now + record.ttl ∧
      (∀ u ∈ swapRemove tuples i, e'.next_expiry ≤ u.2.2) ∧
      (e'.next_expiry = now + record.ttl ∨
        ∃ u ∈ swapRemove tuples i, e'.next_expiry = u.2.2) ∧
      lookupKey record.name (s.insert now record).expiry_priority
        = some e'.next_expiry := by
  have h1 : ¬ (now + record.ttl <
      foldMin (swapRemove tuples i) (now + record.ttl)) :=
    not_lt.mpr (foldMin_le_init _ _)
  have hfm : foldMin (swapRemove tuples i ++
      [(record.rtype, record.rclass, now + record.ttl)]) (now + record.ttl)
      = foldMin (swapRemove tuples i) (now + record.ttl) := by
    show List.foldl _ _ _ = _
    rw [List.foldl_append]
    show (if (record.rtype, record.rclass, now + record.ttl).2.2 <
        List.foldl _ (now + record.ttl) (swapRemove tuples i) then _
      else List.foldl _ (now + record.ttl) (swapRemove tuples i)) = _
    rw [if_neg (by simpa [foldMin] using h1)]
    rfl
  rw [insert_of_dup_eq hE hG hF hD]
  dsimp only
  simp only [lookupKey_updateKey_self, hE, Option.map_some]
  refine ⟨_, rfl, ?_, ?_, ?_, ?_, ?_⟩
  · exact hfm
  · exact foldMin_le_init _ _
  · intro u hu
    exact foldMin_le_mem _ _ u (List.mem_append.mpr (Or.inl hu))
  · rcases foldMin_eq_init_or_mem (swapRemove tuples i ++
        [(record.rtype, record.rclass, now + record.ttl)])
        (now + record.ttl) with h | ⟨u, hu, h⟩
    · exact Or.inl h
    · rcases List.mem_append.mp hu with hu | hu
      · exact Or.inr ⟨u, hu, h⟩
      · rcases List.mem_singleton.mp hu with rfl
        exact Or.inl h
  · show lookupKey record.name
      (pqChangePriority record.name _ s.expiry_priority) = _
    rw [pqChangePriority, lookupKey_updateKey_self,
      hI.syncX (record.name, entry) (lookupKey_mem hE)]
    rfl

theorem C8_witness :
    ∃ e', lookupKey exDomX
        (((emptyCache 5).insert 0 (exRecA 10)).insert 0 (exRecA 30)).entries
        = some e' ∧
      e'.next_expiry = foldMin (swapRemove [(RecordTypeWithData.A 7,
        RecordClass.IN, 10)] 0) (0 + 30) ∧
      e'.next_expiry ≤ 0 + 30 ∧
      (∀ u ∈ swapRemove [(RecordTypeWithData.A 7, RecordClass.IN, 10)] 0,
        e'.next_expiry ≤ u.2.2) ∧
      (e'.next_expiry = 0 + 30 ∨
        ∃ u ∈ swapRemove [(RecordTypeWithData.A 7, RecordClass.IN, 10)] 0,
          e'.next_expiry = u.2.2) ∧
      lookupKey exDomX
        (((emptyCache 5).insert 0 (exRecA 10)).insert 0
          (exRecA 30)).expiry_priority = some e'.next_expiry :=
  @C8_next_expiry_amended ((emptyCache 5).insert 0 (exRecA 10)) 0 (exRecA 30)
    { last_read := 0, next_expiry := 10, size := 1,
      records := [(RecordType.A, [(RecordTypeWithData.A 7,
        RecordClass.IN, 10)])] }
    [(RecordTypeWithData.A 7, RecordClass.IN, 10)] 0
    (RecordTypeWithData.A 7, RecordClass.IN, 10)
    (inv_insert (emptyCache 5) 0 (exRecA 10) (inv_emptyCache 5))
    (by decide) (by decide) (by decide) (by decide)

/-- C5: the deduplication law.  Replacing an already-stored
(payload, class) pair — whatever its TTL — leaves the domain's tuple
count, the entry's `size` and `current_size` unchanged and only swaps
that tuple's expiry for `now + ttl`, preserving the per-group
uniqueness invariant; an insert with no such duplicate increments the
entry's `size` and `current_size` by exactly one. -/
theorem C5_dedup_law :
    (∀ (s : BetterCache) (now : Instant) (record : ResourceRecord)
      (entry : CachedDomainRecords) (tuples : List CachedTuple)
      (u : CachedTuple), Inv s →
      lookupKey record.name s.entries = some entry →
      lookupKey record.rtype.rtype entry.records = some tuples →
      u ∈ tuples → u.1 = record.rtype → u.2.1 = record.rclass →
      ∃ e' group',
        lookupKey record.name (s.insert now record).entries = some e' ∧
        lookupKey record.rtype.rtype e'.records = some group' ∧
        group'.Perm (tuples.erase u ++
          [(record.rtype, record.rclass, now + record.ttl)]) ∧
        group'.length = tuples.length ∧
        e'.size = entry.size ∧
        (s.insert now record).current_size = s.current_size ∧
        (∀ kv ∈ (s.insert now record).entries, ∀ g ∈ kv.2.records,
          g.2.Pairwise (fun a b => ¬(a.1 = b.1 ∧ a.2.1 = b.2.1)))) ∧
    (∀ (s : BetterCache) (now : Instant) (record : ResourceRecord)
      (entry : CachedDomainRecords), Inv s →
      lookupKey record.name s.entries = some entry →
      (∀ v ∈ (lookupKey record.rtype.rtype entry.records).getD [],
        ¬(v.1 = record.rtype ∧ v.2.1 = record.rclass)) →
      ∃ e', lookupKey record.name (s.insert now record).entries = some e' ∧
        e'.size = entry.size + 1 ∧
        (s.insert now record).current_size = s.current_size + 1) := by
  constructor
  · intro s now record entry tuples u hI hE hG hu hup huc
    have hdpu : dupPred record u = true := dupPred_true_iff.mpr ⟨hup, huc⟩
    cases hF : findIdxElem (dupPred record) tuples with
    | none =>
      have := findIdxElem_eq_none hF u hu
      rw [hdpu] at this
      exact absurd this (by simp)
    | some it =>
      obtain ⟨i, t⟩ := it
      obtain ⟨hpt, F1, F2, htup, hlen, hfirst⟩ := findIdxElem_split hF
      have hptc := dupPred_true_iff.mp hpt
      have huqT : tuples.Pairwise (fun a b => ¬(a.1 = b.1 ∧ a.2.1 = b.2.1)) :=
        hI.uniqG _ (lookupKey_mem hE) (record.rtype.rtype, tuples)
          (lookupKey_mem hG)
      have hut : u = t := by
        by_contra hne
        have hu' : u ∈ F1 ++ t :: F2 := htup ▸ hu
        rcases List.mem_append.mp hu' with h | h
        · have := hfirst u h
          rw [hdpu] at this
          exact absurd this (by simp)
        · rcases List.mem_cons.mp h with h | h
          · exact hne h
          · have hpw := (List.pairwise_append.mp (htup ▸ huqT)).2.1
            have hta := (List.pairwise_cons.mp hpw).1 u h
            exact hta ⟨hptc.1.trans hup.symm, hptc.2.trans huc.symm⟩
      have hnF1 : u ∉ F1 := by
        intro h
        have := hfirst u h
        rw [hdpu] at this
        exact absurd this (by simp)
      have herase : tuples.erase u = F1 ++ F2 := by
        rw [htup, ← hut, List.erase_append_right _ hnF1,
          List.erase_cons_head]
      have hperm : (swapRemove tuples i).Perm (F1 ++ F2) := by
        rw [htup, ← hlen]
        exact swapRemove_perm_split
      have hpermG : (swapRemove tuples i ++
          [(record.rtype, record.rclass, now + record.ttl)]).Perm
          (tuples.erase u ++
            [(record.rtype, record.rclass, now + record.ttl)]) := by
        rw [herase]
        exact (List.perm_append_right_iff _).mpr hperm
      have hlen1 : (swapRemove tuples i).length + 1 = tuples.length := by
        rw [hperm.length_eq, htup]
        simp
        omega
      have hmemSelf := lookupKey_mem hE
      have hszE := hI.sizeCount _ hmemSelf
      have hposE := hI.sizePos _ hmemSelf
      have hcur := entry_size_le_current hI hmemSelf
      dsimp only at hszE hposE hcur
      have huq' := (inv_insert s now record hI).uniqG
      by_cases hD : t.2.2 = entry.next_expiry
      · rw [insert_of_dup_eq hE hG hF hD] at huq' ⊢
        dsimp only at huq' ⊢
        simp only [lookupKey_updateKey_self, hE, Option.map_some] at huq' ⊢
        refine ⟨_, _, rfl, ?_, hpermG, ?_, ?_, ?_, huq'⟩
        · dsimp only
          rw [lookupKey_updateKey_self, hG]
          rfl
        · simpa using hlen1
        · show entry.size - 1 + 1 = entry.size
          omega
        · show s.current_size - 1 + 1 = s.current_size
          omega
      · rw [insert_of_dup_ne hE hG hF hD] at huq' ⊢
        dsimp only at huq' ⊢
        simp only [lookupKey_updateKey_self, hE, Option.map_some] at huq' ⊢
        refine ⟨_, _, rfl, ?_, hpermG, ?_, ?_, ?_, huq'⟩
        · dsimp only
          rw [lookupKey_updateKey_self, hG]
          rfl
        · simpa using hlen1
        · show entry.size - 1 + 1 = entry.size
          omega
        · show s.current_size - 1 + 1 = s.current_size
          omega
  · intro s now record entry hI hE hnodup
    cases hG : lookupKey record.rtype.rtype entry.records with
    | none =>
      rw [insert_of_new_group hE hG]
      dsimp only
      simp only [lookupKey_updateKey_self, hE, Option.map_some]
      exact ⟨_, rfl, rfl, trivial⟩
    | some tuples =>
      rw [hG] at hnodup
      cases hF : findIdxElem (dupPred record) tuples with
      | some it =>
        obtain ⟨i, t⟩ := it
        obtain ⟨hpt, F1, F2, htup, _, _⟩ := findIdxElem_split hF
        have hptc := dupPred_true_iff.mp hpt
        have hmem : t ∈ tuples := by
          rw [htup]
          exact List.mem_append.mpr (Or.inr (List.mem_cons_self t F2))
        exact absurd hptc (hnodup t hmem)
      | none =>
        rw [insert_of_no_dup hE hG hF]
        dsimp only
        simp only [lookupKey_updateKey_self, hE, Option.map_some]
        exact ⟨_, rfl, rfl, trivial⟩

theorem C5_witness :
    (∃ e' group',
      lookupKey exDomX (((emptyCache 5).insert 0 (exRecA 10)).insert 5
          (exRecA 30)).entries = some e' ∧
      lookupKey RecordType.A e'.records = some group' ∧
      group'.Perm ([(RecordTypeWithData.A 7, RecordClass.IN,
          10)].erase (RecordTypeWithData.A 7, RecordClass.IN, 10) ++
        [(RecordTypeWithData.A 7, RecordClass.IN, 5 + 30)]) ∧
      group'.length
        = [((RecordTypeWithData.A 7 : RecordTypeWithData),
            RecordClass.IN, (10 : Instant))].length ∧
      e'.size = 1 ∧
      (((emptyCache 5).insert 0 (exRecA 10)).insert 5
          (exRecA 30)).current_size
        = ((emptyCache 5).insert 0 (exRecA 10)).current_size ∧
      (∀ kv ∈ (((emptyCache 5).insert 0 (exRecA 10)).insert 5
          (exRecA 30)).entries, ∀ g ∈ kv.2.records,
        g.2.Pairwise (fun a b => ¬(a.1 = b.1 ∧ a.2.1 = b.2.1)))) ∧
    (∃ e', lookupKey exDomX (((emptyCache 5).insert 0 (exRecA 10)).insert 5
          (exRecC 20)).entries = some e' ∧
      e'.size = 1 + 1 ∧
      (((emptyCache 5).insert 0 (exRecA 10)).insert 5
          (exRecC 20)).current_size
        = ((emptyCache 5).insert 0 (exRecA 10)).current_size + 1) :=
  ⟨C5_dedup_law.1 ((emptyCache 5).insert 0 (exRecA 10)) 5 (exRecA 30)
      { last_read := 0, next_expiry := 10, size := 1,
        records := [(RecordType.A, [(RecordTypeWithData.A 7,
          RecordClass.IN, 10)])] }
      [(RecordTypeWithData.A 7, RecordClass.IN, 10)]
      (RecordTypeWithData.A 7, RecordClass.IN, 10)
      (inv_insert (emptyCache 5) 0 (exRecA 10) (inv_emptyCache 5))
      (by decide) (by decide) (by decide) (by decide) (by decide),
   C5_dedup_law.2 ((emptyCache 5).insert 0 (exRecA 10)) 5 (exRecC 20)
      { last_read := 0, next_expiry := 10, size := 1,
        records := [(RecordType.A, [(RecordTypeWithData.A 7,
          RecordClass.IN, 10)])] }
      (inv_insert (emptyCache 5) 0 (exRecA 10) (inv_emptyCache 5))
      (by decide) (by decide)⟩

/-- C4 (counterexample): `exStaleState` (capacity 1) holds two tuples
for `exDomX`: a CNAME expiring at 20 and an A-record expiring at 30,
with `next_expiry` stuck at the stale value 30.  Pruning at instant 25
finds the expired CNAME (25 ≥ 20), the live A-record (25 < 30), and
`current_size - 1 ≤ desired_size`, so by the claim the expiry pass
alone would suffice: return 1 with the live tuple retained.  The code
instead returns 2 and evicts the live A-record as well, because the
expiry pass trusts the stale `next_expiry` 30, removes nothing, and the
LRU pass then evicts the whole domain. -/
theorem C4_counterexample :
    exStaleState.current_size = 2 ∧
    exStaleState.desired_size = 1 ∧
    (∃ e, lookupKey exDomX exStaleState.entries = some e ∧
      (RecordTypeWithData.CNAME exDomY, RecordClass.IN, (20 : Instant))
        ∈ allTuples e ∧
      (RecordTypeWithData.A 7, RecordClass.IN, (30 : Instant))
        ∈ allTuples e) ∧
    ¬ (25 : Instant) < 20 ∧
    (25 : Instant) < 30 ∧
    exStaleState.current_size - 1 ≤ exStaleState.desired_size ∧
    (exStaleState.prune 25).1 = 2 ∧
    (exStaleState.prune 25).2.entries = [] :=
  ⟨by decide, by decide, ⟨_, rfl, by decide, by decide⟩, by decide,
    by decide, by decide, by decide, by decide⟩

/-- C4 (amended): `prune` is a no-op returning 0 under the bound.  On a
state whose `next_expiry` fields are accurate lower bounds for their
tuples' expiries, the over-capacity path first runs the expiry pass —
which removes exactly the expired tuples, across the whole cache,
keeping every live one — then the LRU pass drives `current_size` within
the bound, the return value counting all removed tuples; each LRU step
evicts a domain of minimal `last_read` wholesale from `entries`,
`access_priority` and `expiry_priority`, subtracting its full size. -/
theorem C4_prune_amended :
    (∀ (s : BetterCache) (now : Instant),
      s.current_size ≤ s.desired_size → s.prune now = (0, s)) ∧
    (∀ (s : BetterCache) (now : Instant), Inv s → AccurateExpiry s →
      ¬ s.current_size ≤ s.desired_size →
      NoExpired (s.removeExpired now).2 now ∧
      totalLive (s.removeExpired now).2 now = totalLive s now ∧
      (s.removeExpired now).1 + totalTuples (s.removeExpired now).2
        = totalTuples s ∧
      (s.prune now).2.current_size ≤ s.desired_size ∧
      (s.prune now).1 + totalTuples (s.prune now).2 = totalTuples s ∧
      NoExpired (s.prune now).2 now) ∧
    (∀ s : BetterCache, Inv s → s.entries ≠ [] →
      ∃ name entry, lookupKey name s.entries = some entry ∧
        (∀ kv ∈ s.entries, entry.last_read ≤ kv.2.last_read) ∧
        (s.removeLeastRecentlyUsed).1 = entry.size ∧
        (s.removeLeastRecentlyUsed).2.entries = removeKey name s.entries ∧
        (s.removeLeastRecentlyUsed).2.current_size
          = s.current_size - entry.size ∧
        name ∉ keysOf (s.removeLeastRecentlyUsed).2.entries ∧
        name ∉ keysOf (s.removeLeastRecentlyUsed).2.access_priority ∧
        name ∉ keysOf (s.removeLeastRecentlyUsed).2.expiry_priority) :=
  ⟨fun _ _ h => prune_of_under h,
   fun _ _ hI hAcc hover => prune_spec hI hAcc hover,
   fun _ hI hne => removeLRU_order hI hne⟩

theorem C4_witness :
    (((emptyCache 1).insert 0 (exRecA 0)).prune 5
      = (0, (emptyCache 1).insert 0 (exRecA 0))) ∧
    (NoExpired (exOverState.removeExpired 5).2 5 ∧
      totalLive (exOverState.removeExpired 5).2 5 = totalLive exOverState 5 ∧
      (exOverState.removeExpired 5).1
          + totalTuples (exOverState.removeExpired 5).2
        = totalTuples exOverState ∧
      (exOverState.prune 5).2.current_size ≤ exOverState.desired_size ∧
      (exOverState.prune 5).1 + totalTuples (exOverState.prune 5).2
        = totalTuples exOverState ∧
      NoExpired (exOverState.prune 5).2 5) ∧
    (∃ name entry, lookupKey name exOverState.entries = some entry ∧
      (∀ kv ∈ exOverState.entries, entry.last_read ≤ kv.2.last_read) ∧
      (exOverState.removeLeastRecentlyUsed).1 = entry.size ∧
      (exOverState.removeLeastRecentlyUsed).2.entries
        = removeKey name exOverState.entries ∧
      (exOverState.removeLeastRecentlyUsed).2.current_size
        = exOverState.current_size - entry.size ∧
      name ∉ keysOf (exOverState.removeLeastRecentlyUsed).2.entries ∧
      name ∉ keysOf (exOverState.removeLeastRecentlyUsed).2.access_priority ∧
      name ∉ keysOf (exOverState.removeLeastRecentlyUsed).2.expiry_priority) :=
  ⟨C4_prune_amended.1 ((emptyCache 1).insert 0 (exRecA 0)) 5 (by decide),
   C4_prune_amended.2.1 exOverState 5
     (inv_insert ((emptyCache 1).insert 0 (exRecA 0)) 0 (exRecY 100)
       (inv_insert (emptyCache 1) 0 (exRecA 0) (inv_emptyCache 1)))
     (by unfold AccurateExpiry; decide) (by decide),
   C4_prune_amended.2.2 exOverState
     (inv_insert ((emptyCache 1).insert 0 (exRecA 0)) 0 (exRecY 100)
       (inv_insert (emptyCache 1) 0 (exRecA 0) (inv_emptyCache 1)))
     (by decide)⟩

/-- C6: every record `get` returns carries the TTL `expiry - now` of a
stored tuple (`Nat` truncated subtraction — the non-negative difference,
clamped to zero once the expiry is past); `get` never deletes any stored
tuple, expired or not; and a record inserted with TTL `T` then looked up
`d` later (`d < T`) is reported with TTL `T - d`. -/
theorem C6_ttl_clamped :
    (∀ (s : BetterCache) (now : Instant) (name : DomainName)
      (qtype : QueryType) (qclass : QueryClass) (e : CachedDomainRecords),
      lookupKey name s.entries = some e →
      ∀ rr ∈ (s.get now name qtype qclass).1,
        ∃ t ∈ allTuples e, rr.rtype = t.1 ∧ rr.rclass = t.2.1 ∧
          rr.ttl = t.2.2 - now) ∧
    (∀ (s : BetterCache) (now : Instant) (name : DomainName)
      (qtype : QueryType) (qclass : QueryClass) (n : DomainName),
      (lookupKey n (s.get now name qtype qclass).2.entries).map
          (fun e => e.records)
        = (lookupKey n s.entries).map (fun e => e.records)) ∧
    (∀ (s : BetterCache) (t0 : Instant) (record : ResourceRecord)
      (d : Duration), d < record.ttl →
      ∃ rr ∈ ((s.insert t0 record).get (t0 + d) record.name
          (QueryType.Record record.rtype.rtype) QueryClass.Wildcard).1,
        rr.rtype = record.rtype ∧ rr.rclass = record.rclass ∧
        rr.ttl = record.ttl - d) := by
  refine ⟨?_, ?_, ?_⟩
  · intro s now name qtype qclass e hE rr hrr
    rw [get_fst hE] at hrr
    obtain ⟨t, ht, rfl⟩ := List.mem_map.mp hrr
    exact ⟨t, matchedTuples_subset e qtype t (List.mem_filter.mp ht).1,
      rfl, rfl, rfl⟩
  · intro s now name qtype qclass n
    cases hE : lookupKey name s.entries with
    | none => rw [get_of_absent hE]
    | some e =>
      by_cases hrrs : getRrs e now name qtype qclass = []
      · rw [get_of_empty hE hrrs]
      · rw [get_of_hit hE hrrs]
        by_cases hn : n = name
        · subst hn
          dsimp only
          rw [lookupKey_updateKey_self, hE]
          rfl
        · dsimp only
          rw [lookupKey_updateKey_ne hn]
  · intro s t0 record d hd
    obtain ⟨e', hE', hmem⟩ := insert_tuple_mem s t0 record
    rw [get_fst hE']
    have hmt : (record.rtype, record.rclass, t0 + record.ttl)
        ∈ matchedTuples e' (QueryType.Record record.rtype.rtype) := hmem
    refine ⟨_, List.mem_map_of_mem _ (List.mem_filter.mpr
      ⟨hmt, by simp [RecordClass.matches]⟩), rfl, rfl, ?_⟩
    show t0 + record.ttl - (t0 + d) = record.ttl - d
    exact Nat.add_sub_add_left t0 record.ttl d

theorem C6_witness :
    (∀ rr ∈ (((emptyCache 5).insert 0 (exRecA 10)).get 3 exDomX
        QueryType.Wildcard QueryClass.Wildcard).1,
      ∃ t ∈ allTuples
          { last_read := 0, next_expiry := 10, size := 1,
            records := [(RecordType.A, [(RecordTypeWithData.A 7,
              RecordClass.IN, 10)])] },
        rr.rtype = t.1 ∧ rr.rclass = t.2.1 ∧ rr.ttl = t.2.2 - 3) ∧
    ((lookupKey exDomX (((emptyCache 5).insert 0 (exRecA 10)).get 3 exDomX
          QueryType.Wildcard QueryClass.Wildcard).2.entries).map
        (fun e => e.records)
      = (lookupKey exDomX ((emptyCache 5).insert 0 (exRecA 10)).entries).map
        (fun e => e.records)) ∧
    (∃ rr ∈ (((emptyCache 5).insert 0 (exRecA 10)).get (0 + 3)
        (exRecA 10).name (QueryType.Record (exRecA 10).rtype.rtype)
        QueryClass.Wildcard).1,
      rr.rtype = (exRecA 10).rtype ∧ rr.rclass = (exRecA 10).rclass ∧
      rr.ttl = (exRecA 10).ttl - 3) :=
  ⟨C6_ttl_clamped.1 ((emptyCache 5).insert 0 (exRecA 10)) 3 exDomX
      QueryType.Wildcard QueryClass.Wildcard
      { last_read := 0, next_expiry := 10, size := 1,
        records := [(RecordType.A, [(RecordTypeWithData.A 7,
          RecordClass.IN, 10)])] } (by decide),
   C6_ttl_clamped.2.1 ((emptyCache 5).insert 0 (exRecA 10)) 3 exDomX
      QueryType.Wildcard QueryClass.Wildcard exDomX,
   C6_ttl_clamped.2.2 (emptyCache 5) 0 (exRecA 10) 3 (by decide)⟩

/-- C7: `get` on a name with no entry returns the empty sequence and the
unchanged state; whenever the result sequence is empty the state is
unchanged (so recency is untouched, also on an existing entry with no
matching record); and whenever the result is non-empty the domain's
`last_read` and its `access_priority` key both become the instant of the
call. -/
theorem C7_recency :
    (∀ (s : BetterCache) (now : Instant) (name : DomainName)
      (qtype : QueryType) (qclass : QueryClass),
      lookupKey name s.entries = none →
      s.get now name qtype qclass = ([], s)) ∧
    (∀ (s : BetterCache) (now : Instant) (name : DomainName)
      (qtype : QueryType) (qclass : QueryClass),
      (s.get now name qtype qclass).1 = [] →
      (s.get now name qtype qclass).2 = s) ∧
    (∀ (s : BetterCache) (now : Instant) (name : DomainName)
      (qtype : QueryType) (qclass : QueryClass), Inv s →
      (s.get now name qtype qclass).1 ≠ [] →
      ∃ e', lookupKey name (s.get now name qtype qclass).2.entries
          = some e' ∧
        e'.last_read = now ∧
        lookupKey name (s.get now name qtype qclass).2.access_priority
          = some now) := by
  refine ⟨?_, ?_, ?_⟩
  · intro s now name qtype qclass hE
    exact get_of_absent hE
  · intro s now name qtype qclass h1
    cases hE : lookupKey name s.entries with
    | none => rw [get_of_absent hE]
    | some e =>
      by_cases hrrs : getRrs e now name qtype qclass = []
      · rw [get_of_empty hE hrrs]
      · rw [get_fst hE] at h1
        exact absurd h1 hrrs
  · intro s now name qtype qclass hI h1
    cases hE : lookupKey name s.entries with
    | none =>
      rw [get_of_absent hE] at h1
      exact absurd rfl h1
    | some e =>
      by_cases hrrs : getRrs e now name qtype qclass = []
      · rw [get_fst hE, hrrs] at h1
        exact absurd rfl h1
      · rw [get_of_hit hE hrrs]
        dsimp only
        rw [lookupKey_updateKey_self, hE]
        refine ⟨_, rfl, rfl, ?_⟩
        have hkA : name ∈ keysOf s.access_priority :=
          hI.keysEA name (mem_key_of_mem (lookupKey_mem hE))
        obtain ⟨v, hv⟩ := mem_keysOf.mp hkA
        have hlv : lookupKey name s.access_priority = some v :=
          lookupKey_eq_some_of_mem hv hI.nodupA
        show lookupKey name
          (pqChangePriority name now s.access_priority) = some now
        rw [pqChangePriority, lookupKey_updateKey_self, hlv]
        rfl

theorem C7_witness :
    (((emptyCache 5).insert 0 (exRecA 10)).get 3 exDomY QueryType.Wildcard
        QueryClass.Wildcard
      = ([], (emptyCache 5).insert 0 (exRecA 10))) ∧
    ((((emptyCache 5).insert 0 (exRecA 10)).get 3 exDomX
        (QueryType.Record RecordType.CNAME) QueryClass.Wildcard).2
      = (emptyCache 5).insert 0 (exRecA 10)) ∧
    (∃ e', lookupKey exDomX
        ((((emptyCache 5).insert 0 (exRecA 10)).get 3 exDomX
          QueryType.Wildcard QueryClass.Wildcard).2).entries = some e' ∧
      e'.last_read = 3 ∧
      lookupKey exDomX
        ((((emptyCache 5).insert 0 (exRecA 10)).get 3 exDomX
          QueryType.Wildcard QueryClass.Wildcard).2).access_priority
        = some 3) :=
  ⟨C7_recency.1 ((emptyCache 5).insert 0 (exRecA 10)) 3 exDomY
      QueryType.Wildcard QueryClass.Wildcard (by decide),
   C7_recency.2.1 ((emptyCache 5).insert 0 (exRecA 10)) 3 exDomX
      (QueryType.Record RecordType.CNAME) QueryClass.Wildcard (by decide),
   C7_recency.2.2 ((emptyCache 5).insert 0 (exRecA 10)) 3 exDomX
      QueryType.Wildcard QueryClass.Wildcard
      (inv_insert (emptyCache 5) 0 (exRecA 10) (inv_emptyCache 5))
      (by decide)⟩

end Claims

end DnsCache
